import Mathlib

/-!
# Verification of the kessler multi-source reconciliation engine

Shallow embedding of the reconciliation core of the repository:

* `src/db.py` — nested-path helpers (`get_nested_field`, `set_nested_field`),
  the transformation log (`record_transformation`), the canonicalizer
  (`update_canonical`) and the search/count pair
  (`search_satellites` / `count_satellites`);
* `src/promote_attributes.py` — `parse_filter` and `promote_document`;
* `src/import_celestrak_tle.py` — `match_designator_format`.

Python dictionaries are modelled as association lists in insertion order
(Python dicts preserve insertion order and hold each key once); Python
strings handled character-wise are modelled as `List Char`; a JSON-like
value universe `Val` models the dynamic values stored in documents.
`Val.null` models Python `None`.
-/

inductive Val where
  | null
  | str (s : String)
  | int (n : Int)
  | dict (entries : List (String × Val))
  | arr (elems : List Val)

/-- Association-list lookup: first binding wins (a Python dict holds each
key once, so this is exact on images of Python dicts). `Option.none`
models "key not present". -/
def alget {α β : Type} [DecidableEq α] : List (α × β) → α → Option β
  | [], _ => Option.none
  | (k, v) :: rest, key => if k = key then some v else alget rest key

/-- Association-list update, modelling Python `d[key] = value`: an existing
binding is replaced in place (Python dicts keep the original insertion
position), a missing key is appended at the end. -/
def alset {α β : Type} [DecidableEq α] : List (α × β) → α → β → List (α × β)
  | [], key, value => [(key, value)]
  | (k, v) :: rest, key, value =>
      if k = key then (key, value) :: rest else (k, v) :: alset rest key value

theorem alget_alset_eq {α β : Type} [DecidableEq α]
    (d : List (α × β)) (k : α) (v : β) : alget (alset d k v) k = some v := by
  induction d with
  | nil => simp [alget, alset]
  | cons kv rest ih =>
      by_cases h : kv.1 = k
      · simp [alset, alget, h]
      · simp [alset, alget, h, ih]

theorem alget_alset_ne {α β : Type} [DecidableEq α]
    (d : List (α × β)) (k k' : α) (v : β) (h : k ≠ k') :
    alget (alset d k v) k' = alget d k' := by
  induction d with
  | nil => simp [alget, alset, h]
  | cons kv rest ih =>
      by_cases hk : kv.1 = k
      · simp [alset, alget, hk, h]
      · simp [alset, alget, hk, ih]

theorem alset_self {α β : Type} [DecidableEq α]
    (d : List (α × β)) (k : α) (v : β) (h : alget d k = some v) :
    alset d k v = d := by
  induction d with
  | nil => simp [alget] at h
  | cons kv rest ih =>
      by_cases hk : kv.1 = k
      · obtain ⟨k1, v1⟩ := kv
        simp only at hk
        subst hk
        simp [alget] at h
        simp [alset, h]
      · obtain ⟨k1, v1⟩ := kv
        simp only at hk
        simp [alget, hk] at h
        simp [alset, hk, ih h]

theorem alget_append {α β : Type} [DecidableEq α]
    (l1 l2 : List (α × β)) (k : α) :
    alget (l1 ++ l2) k =
      match alget l1 k with
      | some v => some v
      | Option.none => alget l2 k := by
  induction l1 with
  | nil => simp [alget]
  | cons kv rest ih =>
      by_cases h : kv.1 = k
      · simp [alget, h]
      · simp [alget, h, ih]

/-! ## Nested-path helpers (`src/db.py`, `get_nested_field` / `set_nested_field`) -/

/-- Python `s.split(sep)` for a one-character separator, empties kept. -/
def splitOnChar (sep : Char) : List Char → List (List Char)
  | [] => [[]]
  | c :: rest =>
      if c = sep then [] :: splitOnChar sep rest
      else
        match splitOnChar sep rest with
        | h :: t => (c :: h) :: t
        | [] => [[c]]

/-- A dotted path split into its segments, exactly as Python
`path.split(".")` does (the separator is a single character). -/
def splitPath (path : String) : List String :=
  (splitOnChar '.' path.toList).map List.asString

/-- `get_nested_field`'s walk over a value. The Python loop returns the
`None` object both when a segment is missing and when the stored value is
`None` itself; `Val.null` models both outcomes, exactly as observable in
Python. A non-dict intermediate also yields `None`. -/
def getNestedVal : Val → List String → Val
  | v, [] => v
  | Val.dict d, key :: rest =>
      match alget d key with
      | some v => getNestedVal v rest
      | Option.none => Val.null
  | _, _ :: _ => Val.null

/-- `get_nested_field(obj, path)` from `src/db.py`. -/
def get_nested_field (obj : List (String × Val)) (path : String) : Val :=
  getNestedVal (Val.dict obj) (splitPath path)

/-- `set_nested_field`'s loop, on the list of path segments. Returns the
Python boolean result together with the dictionary after the call (the
Python function mutates `obj` in place). For `keys = []` Python would
raise an `IndexError` on `keys[-1]`; a split path is never empty, and the
callers catch the exception, so that case is modelled as a failure that
leaves the document unchanged. In the branch descending into an existing
sub-dict the (possibly mutated) sub-dict is written back unconditionally,
mirroring Python's in-place mutation by reference. -/
def setNested : List String → Val → List (String × Val) → Bool × List (String × Val)
  | [], _, d => (false, d)
  | [last], value, d => (true, alset d last value)
  | key :: k2 :: rest, value, d =>
      match alget d key with
      | Option.none =>
          let r := setNested (k2 :: rest) value []
          (r.1, alset d key (Val.dict r.2))
      | some (Val.dict sub) =>
          let r := setNested (k2 :: rest) value sub
          (r.1, alset d key (Val.dict r.2))
      | some _ => (false, d)

/-- `set_nested_field(obj, path, value)` from `src/db.py`. -/
def set_nested_field (obj : List (String × Val)) (path : String) (value : Val) :
    Bool × List (String × Val) :=
  setNested (splitPath path) value obj

/-- The loop over `keys[:-1]` succeeds exactly when no existing
intermediate segment holds a non-dict value: missing intermediates are
fine (they get created), existing dict intermediates are descended. -/
def scalarFree : List (String × Val) → List String → Bool
  | _, [] => true
  | _, [_] => true
  | d, key :: k2 :: rest =>
      match alget d key with
      | Option.none => true
      | some (Val.dict sub) => scalarFree sub (k2 :: rest)
      | some _ => false

theorem setNested_nil_start (keys : List String) (value : Val) (h : keys ≠ []) :
    (setNested keys value []).1 = true := by
  induction keys with
  | nil => exact absurd rfl h
  | cons k rest ih =>
      cases rest with
      | nil => simp [setNested]
      | cons k2 r2 =>
          simp only [setNested, alget]
          exact ih (by simp)

theorem setNested_false_unchanged (keys : List String) (value : Val)
    (d : List (String × Val)) (h : (setNested keys value d).1 = false) :
    (setNested keys value d).2 = d := by
  induction keys generalizing d with
  | nil => simp [setNested]
  | cons k rest ih =>
      cases rest with
      | nil => simp [setNested] at h
      | cons k2 r2 =>
          simp only [setNested] at h ⊢
          cases hg : alget d k with
          | none =>
              simp only [hg] at h
              exact absurd h (by simp [setNested_nil_start (k2 :: r2) value (by simp)])
          | some v =>
              cases v with
              | dict sub =>
                  simp only [hg] at h ⊢
                  have hsub := ih sub h
                  rw [hsub]
                  exact alset_self d k (Val.dict sub) hg
              | null => simp [hg]
              | str s => simp [hg]
              | int n => simp [hg]
              | arr l => simp [hg]

theorem setNested_ok_iff_scalarFree (keys : List String) (value : Val)
    (d : List (String × Val)) (h : keys ≠ []) :
    (setNested keys value d).1 = true ↔ scalarFree d keys = true := by
  induction keys generalizing d with
  | nil => exact absurd rfl h
  | cons k rest ih =>
      cases rest with
      | nil => simp [setNested, scalarFree]
      | cons k2 r2 =>
          simp only [setNested, scalarFree]
          cases hg : alget d k with
          | none =>
              simp [setNested_nil_start (k2 :: r2) value (by simp)]
          | some v =>
              cases v with
              | dict sub => exact ih sub (by simp)
              | null => simp
              | str s => simp
              | int n => simp
              | arr l => simp

theorem setNested_get_of_ok (keys : List String) (value : Val)
    (d : List (String × Val)) (h : (setNested keys value d).1 = true) :
    getNestedVal (Val.dict (setNested keys value d).2) keys = value := by
  induction keys generalizing d with
  | nil => simp [setNested] at h
  | cons k rest ih =>
      cases rest with
      | nil => simp [setNested, getNestedVal, alget_alset_eq]
      | cons k2 r2 =>
          simp only [setNested] at h ⊢
          cases hg : alget d k with
          | none =>
              simp only [hg] at h ⊢
              simp only [getNestedVal, alget_alset_eq]
              exact ih [] h
          | some v =>
              cases v with
              | dict sub =>
                  simp only [hg] at h ⊢
                  simp only [getNestedVal, alget_alset_eq]
                  exact ih sub h
              | null => simp [hg] at h
              | str s => simp [hg] at h
              | int n => simp [hg] at h
              | arr l => simp [hg] at h

theorem setNested_alget_ne (keys : List String) (value : Val)
    (d : List (String × Val)) (k' : String) (h : keys.head? ≠ some k') :
    alget (setNested keys value d).2 k' = alget d k' := by
  cases keys with
  | nil => simp [setNested]
  | cons k rest =>
      have hk : k ≠ k' := by
        intro he
        exact h (by simp [he])
      cases rest with
      | nil => simp [setNested, alget_alset_ne _ _ _ _ hk]
      | cons k2 r2 =>
          simp only [setNested]
          cases hg : alget d k with
          | none => simp [alget_alset_ne _ _ _ _ hk]
          | some v =>
              cases v with
              | dict sub => simp [alget_alset_ne _ _ _ _ hk]
              | null => simp
              | str s => simp
              | int n => simp
              | arr l => simp

/-! ## Canonicalizer (`src/db.py`, `update_canonical`)

A source record is a flat key/value map; `sources` maps source names to
records in insertion order. A document's `metadata.source_priority`
configuration (a list of source names, read with
`doc["metadata"].get("source_priority", default)`) is modelled as an
`Option (List String)`. -/

abbrev SrcRecord := List (String × Val)

def default_source_priority : List String :=
  ["unoosa", "celestrak", "spacetrack", "kaggle"]

def canonical_fields : List String :=
  ["name", "object_name", "country_of_origin", "international_designator",
   "registration_number", "norad_cat_id", "date_of_launch", "function", "status",
   "registration_document", "un_registered", "gso_location",
   "date_of_decay_or_change", "secretariat_remarks", "external_website",
   "launch_vehicle", "place_of_launch", "object_type", "rcs", "orbital_band",
   "congestion_risk"]

def orbital_fields : List String :=
  ["apogee_km", "perigee_km", "inclination_degrees", "period_minutes"]

def tle_fields : List String := ["tle_line1", "tle_line2"]

/-- Line 212 of `src/db.py`:
`[s for s in source_priority if s in sources] + [s for s in sources if s not in source_priority]`. -/
def effective_priority (cfg : List String) (sources : List (String × SrcRecord)) :
    List String :=
  cfg.filter (fun s => (alget sources s).isSome) ++
    (sources.map Prod.fst).filter (fun s => decide (s ∉ cfg))

/-- The test `value is not None and value != ""` on the result of
`sources[source_name].get(field)` (where a missing key yields `None`).
A non-string value always passes `value != ""` in Python. -/
def scalar_value_ok : Val → Bool
  | Val.null => false
  | Val.str s => !(s == "")
  | _ => true

/-- The test `value is not None` used for the orbital and TLE fields. -/
def not_null : Val → Bool
  | Val.null => false
  | _ => true

/-- One inner loop of `update_canonical`: walk `source_priority`, skip
names not in `sources` (the `if source_name in sources` guard), read
`sources[source_name].get(field)` (missing key gives `None` = `Val.null`)
and stop at the first value passing `ok`. -/
def pick_first (prio : List String) (sources : List (String × SrcRecord))
    (field : String) (ok : Val → Bool) : Option Val :=
  match prio with
  | [] => Option.none
  | s :: rest =>
      match alget sources s with
      | some src =>
          if ok ((alget src field).getD Val.null)
          then some ((alget src field).getD Val.null)
          else pick_first rest sources field ok
      | Option.none => pick_first rest sources field ok

def tle_rename (field : String) : String :=
  if field = "tle_line1" then "line1" else "line2"

/-- The `canonical` dictionary built by `update_canonical` from the
configured priority, the sources map and the timestamp written into
`updated_at` (the Python code formats the current UTC time; the theorems
quantify over the timestamp string). Fields are inserted in the source's
order: scalar fields, then `orbit`, `tle`, `updated_at`,
`source_priority`. -/
def update_canonical_map (cfg : Option (List String))
    (sources : List (String × SrcRecord)) (ts : String) : List (String × Val) :=
  let source_priority := effective_priority (cfg.getD default_source_priority) sources
  let scalars := canonical_fields.filterMap
    (fun f => (pick_first source_priority sources f scalar_value_ok).map (fun v => (f, v)))
  let orbit := orbital_fields.filterMap
    (fun f => (pick_first source_priority sources f not_null).map (fun v => (f, v)))
  let tle := tle_fields.filterMap
    (fun f => (pick_first source_priority sources f not_null).map (fun v => (tle_rename f, v)))
  scalars ++
    [("orbit", Val.dict orbit), ("tle", Val.dict tle),
     ("updated_at", Val.str ts),
     ("source_priority", Val.arr (source_priority.map Val.str))]

/-- The parts of a satellite document that `update_canonical` touches:
it reads `doc["metadata"].get("source_priority", ...)` and
`doc["sources"]`, and overwrites `doc["canonical"]`. -/
structure SatDoc where
  canonical : List (String × Val)
  sources : List (String × SrcRecord)
  metadata_source_priority : Option (List String)

/-- `update_canonical(doc)` from `src/db.py`: rebuilds `doc["canonical"]`
from scratch; `sources` and `metadata` are left untouched. -/
def update_canonical (doc : SatDoc) (ts : String) : SatDoc :=
  { doc with canonical := update_canonical_map doc.metadata_source_priority doc.sources ts }

/-- The specification's resolution rule for a scalar field, written from
the spec's words: scan the sources in effective priority order and take
the value of the first source whose value for the field is present and
neither `None` nor the empty string; absent if no source qualifies. -/
def first_present_nonempty (prio : List String)
    (sources : List (String × SrcRecord)) (field : String) : Option Val :=
  (prio.filterMap (fun s =>
    match alget sources s with
    | some src =>
        match alget src field with
        | some v => if scalar_value_ok v then some v else Option.none
        | Option.none => Option.none
    | Option.none => Option.none)).head?

/-- The analogous spec-side rule for orbital/TLE fields as the code
implements it: only `None` counts as absent. -/
def first_present_not_null (prio : List String)
    (sources : List (String × SrcRecord)) (field : String) : Option Val :=
  (prio.filterMap (fun s =>
    match alget sources s with
    | some src =>
        match alget src field with
        | some v => if not_null v then some v else Option.none
        | Option.none => Option.none
    | Option.none => Option.none)).head?

theorem pick_first_eq_spec (prio : List String) (sources : List (String × SrcRecord))
    (field : String) :
    pick_first prio sources field scalar_value_ok =
      first_present_nonempty prio sources field := by
  induction prio with
  | nil => simp [pick_first, first_present_nonempty]
  | cons s rest ih =>
      simp only [pick_first, first_present_nonempty, List.filterMap_cons]
      cases hs : alget sources s with
      | none => simpa [first_present_nonempty] using ih
      | some src =>
          dsimp only
          cases hf : alget src field with
          | none =>
              simpa [Option.getD, scalar_value_ok, first_present_nonempty] using ih
          | some v =>
              by_cases hv : scalar_value_ok v = true
              · simp [Option.getD, hv]
              · simp only [Bool.not_eq_true] at hv
                simpa [Option.getD, hv, first_present_nonempty] using ih

theorem pick_first_eq_spec_not_null (prio : List String)
    (sources : List (String × SrcRecord)) (field : String) :
    pick_first prio sources field not_null =
      first_present_not_null prio sources field := by
  induction prio with
  | nil => simp [pick_first, first_present_not_null]
  | cons s rest ih =>
      simp only [pick_first, first_present_not_null, List.filterMap_cons]
      cases hs : alget sources s with
      | none => simpa [first_present_not_null] using ih
      | some src =>
          dsimp only
          cases hf : alget src field with
          | none =>
              simpa [Option.getD, not_null, first_present_not_null] using ih
          | some v =>
              by_cases hv : not_null v = true
              · simp [Option.getD, hv]
              · simp only [Bool.not_eq_true] at hv
                simpa [Option.getD, hv, first_present_not_null] using ih

theorem alget_filterMap_not_mem (fields : List String) (resolve : String → Option Val)
    (k : String) (hk : k ∉ fields) :
    alget (fields.filterMap (fun f => (resolve f).map (fun v => (f, v)))) k =
      Option.none := by
  induction fields with
  | nil => simp [alget]
  | cons f rest ih =>
      have hfk : f ≠ k := by
        intro he
        exact hk (by simp [he])
      have hrest : k ∉ rest := fun hm => hk (by simp [hm])
      cases hr : resolve f with
      | none => simpa [List.filterMap_cons, hr] using ih hrest
      | some v => simpa [List.filterMap_cons, hr, alget, hfk] using ih hrest

theorem alget_filterMap_mem (fields : List String) (resolve : String → Option Val)
    (k : String) (hmem : k ∈ fields) (hnd : fields.Nodup) :
    alget (fields.filterMap (fun f => (resolve f).map (fun v => (f, v)))) k =
      resolve k := by
  induction fields with
  | nil => simp at hmem
  | cons f rest ih =>
      rcases List.nodup_cons.mp hnd with ⟨hfr, hndr⟩
      by_cases hfk : f = k
      · subst hfk
        cases hr : resolve f with
        | none => simpa [List.filterMap_cons, hr] using alget_filterMap_not_mem rest resolve f hfr
        | some v => simp [List.filterMap_cons, hr, alget]
      · have hmr : k ∈ rest := by
          rcases List.mem_cons.mp hmem with h | h
          · exact absurd h.symm hfk
          · exact h
        cases hr : resolve f with
        | none => simpa [List.filterMap_cons, hr] using ih hmr hndr
        | some v => simpa [List.filterMap_cons, hr, alget, hfk] using ih hmr hndr

/-- Scalar canonical fields: looking a field of the fixed list up in the
rebuilt `canonical` gives exactly the first-hit resolution. -/
theorem update_canonical_map_scalar (cfg : Option (List String))
    (sources : List (String × SrcRecord)) (ts : String) (f : String)
    (hf : f ∈ canonical_fields) :
    alget (update_canonical_map cfg sources ts) f =
      pick_first (effective_priority (cfg.getD default_source_priority) sources)
        sources f scalar_value_ok := by
  have hnotail : f ∉ ["orbit", "tle", "updated_at", "source_priority"] := by
    have : ∀ x ∈ canonical_fields, x ∉ ["orbit", "tle", "updated_at", "source_priority"] := by
      decide
    exact this f hf
  have h1 : f ≠ "orbit" := fun h => hnotail (by simp [h])
  have h2 : f ≠ "tle" := fun h => hnotail (by simp [h])
  have h3 : f ≠ "updated_at" := fun h => hnotail (by simp [h])
  have h4 : f ≠ "source_priority" := fun h => hnotail (by simp [h])
  have hnd : canonical_fields.Nodup := by decide
  unfold update_canonical_map
  rw [alget_append]
  rw [alget_filterMap_mem canonical_fields _ f hf hnd]
  cases hp : pick_first (effective_priority (cfg.getD default_source_priority) sources)
      sources f scalar_value_ok with
  | none => simp [alget, Ne.symm h1, Ne.symm h2, Ne.symm h3, Ne.symm h4]
  | some v => simp

theorem update_canonical_map_orbit (cfg : Option (List String))
    (sources : List (String × SrcRecord)) (ts : String) :
    alget (update_canonical_map cfg sources ts) "orbit" =
      some (Val.dict (orbital_fields.filterMap
        (fun f => (pick_first (effective_priority (cfg.getD default_source_priority) sources)
          sources f not_null).map (fun v => (f, v))))) := by
  unfold update_canonical_map
  rw [alget_append]
  rw [alget_filterMap_not_mem canonical_fields _ "orbit" (by decide)]
  simp [alget]

theorem update_canonical_map_tle (cfg : Option (List String))
    (sources : List (String × SrcRecord)) (ts : String) :
    alget (update_canonical_map cfg sources ts) "tle" =
      some (Val.dict (tle_fields.filterMap
        (fun f => (pick_first (effective_priority (cfg.getD default_source_priority) sources)
          sources f not_null).map (fun v => (tle_rename f, v))))) := by
  unfold update_canonical_map
  rw [alget_append]
  rw [alget_filterMap_not_mem canonical_fields _ "tle" (by decide)]
  simp [alget]

theorem update_canonical_map_updated_at (cfg : Option (List String))
    (sources : List (String × SrcRecord)) (ts : String) :
    alget (update_canonical_map cfg sources ts) "updated_at" = some (Val.str ts) := by
  unfold update_canonical_map
  rw [alget_append]
  rw [alget_filterMap_not_mem canonical_fields _ "updated_at" (by decide)]
  simp [alget]

theorem update_canonical_map_source_priority (cfg : Option (List String))
    (sources : List (String × SrcRecord)) (ts : String) :
    alget (update_canonical_map cfg sources ts) "source_priority" =
      some (Val.arr ((effective_priority (cfg.getD default_source_priority) sources).map
        Val.str)) := by
  unfold update_canonical_map
  rw [alget_append]
  rw [alget_filterMap_not_mem canonical_fields _ "source_priority" (by decide)]
  simp [alget]

/-- Dropping the `updated_at` binding from a canonical map (the only part
of `canonical` that depends on the clock). -/
def without_updated_at (c : List (String × Val)) : List (String × Val) :=
  c.filter (fun kv => kv.1 != "updated_at")

theorem update_canonical_map_time_independent (cfg : Option (List String))
    (sources : List (String × SrcRecord)) (ts ts' : String) :
    without_updated_at (update_canonical_map cfg sources ts) =
      without_updated_at (update_canonical_map cfg sources ts') := by
  unfold update_canonical_map without_updated_at
  simp [List.filter_append, List.filter]

/-! ## Transformation log (`src/db.py`, `record_transformation`) and the
Attribute Promoter (`src/promote_attributes.py`, `promote_document`) -/

/-- The transformation dictionary built by `record_transformation` (the
timestamp string is a parameter; Python formats the current UTC time).
The `reason` key is appended only when a truthy reason is given. -/
def mkTransformation (ts source_field target_field : String) (value : Val)
    (reason : Option String) : Val :=
  Val.dict
    ([("timestamp", Val.str ts), ("source_field", Val.str source_field),
      ("target_field", Val.str target_field), ("value", value),
      ("promoted_by", Val.str "manual_script")] ++
     (match reason with
      | some r => [("reason", Val.str r)]
      | Option.none => []))

/-- `record_transformation(doc, source_field, target_field, value, reason)`
from `src/db.py`. Creates `metadata` / `metadata.transformations` when
missing and appends one record. If `metadata` holds a non-dict value, or
`metadata.transformations` holds a non-list value, Python raises
(`TypeError` on the membership test or item assignment, or
`AttributeError` on `.append`); the callers catch every exception, so
those outcomes are modelled as `Option.none`. -/
def record_transformation (doc : List (String × Val))
    (ts source_field target_field : String) (value : Val) (reason : Option String) :
    Option (List (String × Val)) :=
  let doc1 :=
    match alget doc "metadata" with
    | Option.none => alset doc "metadata" (Val.dict [])
    | some _ => doc
  match alget doc1 "metadata" with
  | some (Val.dict m) =>
      let m1 :=
        match alget m "transformations" with
        | Option.none => alset m "transformations" (Val.arr [])
        | some _ => m
      match alget m1 "transformations" with
      | some (Val.arr l) =>
          some (alset doc1 "metadata"
            (Val.dict (alset m1 "transformations"
              (Val.arr (l ++ [mkTransformation ts source_field target_field value reason])))))
      | _ => Option.none
  | _ => Option.none

/-- The transformation list of a document, as `record_transformation`
observes it: absent `metadata` or absent `transformations` read as the
empty log; a non-dict `metadata` or a non-list `transformations` is a
type error (`Option.none`). -/
def getTransformations (doc : List (String × Val)) : Option (List Val) :=
  match alget doc "metadata" with
  | Option.none => some []
  | some (Val.dict m) =>
      match alget m "transformations" with
      | Option.none => some []
      | some (Val.arr l) => some l
      | some _ => Option.none
  | some _ => Option.none

/-- `promote_document(doc, source_field, target_field, reason)` from
`src/promote_attributes.py`, with the result dictionary abstracted to the
promoted value on success (`success: True` carries `value`) and
`Option.none` on failure. The second component is the document after the
call — the Python function mutates `doc` in place, so a failure after the
nested set keeps the set's effect. -/
def is_null : Val → Bool
  | Val.null => true
  | _ => false

def promote_document (doc : List (String × Val)) (source_field target_field : String)
    (ts : String) (reason : Option String) : Option Val × List (String × Val) :=
  if is_null (getNestedVal (Val.dict doc) (splitPath source_field)) then
    (Option.none, doc)
  else
    match setNested (splitPath target_field)
        (getNestedVal (Val.dict doc) (splitPath source_field)) doc with
    | (false, doc') => (Option.none, doc')
    | (true, doc') =>
        match record_transformation doc' ts source_field target_field
            (getNestedVal (Val.dict doc) (splitPath source_field)) reason with
        | some doc'' =>
            (some (getNestedVal (Val.dict doc) (splitPath source_field)), doc'')
        | Option.none => (Option.none, doc')

/-- Target paths that interfere with the transformation log itself:
the `metadata` entry as a whole, or anything under
`metadata.transformations`. -/
def log_safe_path : List String → Bool
  | [] => false
  | "metadata" :: [] => false
  | "metadata" :: "transformations" :: _ => false
  | _ :: _ => true

theorem alset_alset_eq {α β : Type} [DecidableEq α]
    (d : List (α × β)) (k : α) (v w : β) :
    alset (alset d k v) k w = alset d k w := by
  induction d with
  | nil => simp [alset]
  | cons kv rest ih =>
      by_cases hk : kv.1 = k
      · simp [alset, hk]
      · simp [alset, hk, ih]

theorem record_transformation_struct (doc : List (String × Val))
    (ts sf tf : String) (value : Val) (reason : Option String)
    (doc' : List (String × Val))
    (h : record_transformation doc ts sf tf value reason = some doc') :
    ∃ l mNew,
      getTransformations doc = some l ∧
      doc' = alset doc "metadata" (Val.dict mNew) ∧
      alget mNew "transformations" =
        some (Val.arr (l ++ [mkTransformation ts sf tf value reason])) ∧
      ∀ s, s ≠ "transformations" →
        alget mNew s =
          (match alget doc "metadata" with
           | some (Val.dict m) => alget m s
           | _ => Option.none) := by
  unfold record_transformation at h
  cases hm : alget doc "metadata" with
  | none =>
      simp only [hm] at h
      rw [alget_alset_eq] at h
      simp [alget, alset] at h
      refine ⟨[], [("transformations",
        Val.arr [mkTransformation ts sf tf value reason])], ?_, ?_, ?_, ?_⟩
      · simp [getTransformations, hm]
      · rw [← h, alset_alset_eq]
      · simp [alget]
      · intro s hs
        simp [alget, hm, Ne.symm hs]
  | some v =>
      cases v with
      | dict m =>
          simp only [hm] at h
          cases hm2 : alget m "transformations" with
          | none =>
              simp only [hm2] at h
              rw [alget_alset_eq] at h
              simp only [List.nil_append, Option.some.injEq] at h
              refine ⟨[], alset (alset m "transformations" (Val.arr []))
                "transformations"
                (Val.arr [mkTransformation ts sf tf value reason]), ?_, ?_, ?_, ?_⟩
              · simp [getTransformations, hm, hm2]
              · exact h.symm
              · rw [alset_alset_eq, alget_alset_eq]
                simp
              · intro s hs
                rw [alset_alset_eq, alget_alset_ne _ _ _ _ (Ne.symm hs)]
          | some w =>
              cases w with
              | arr l =>
                  simp only [hm2, Option.some.injEq] at h
                  refine ⟨l, alset m "transformations"
                    (Val.arr (l ++ [mkTransformation ts sf tf value reason])),
                    ?_, ?_, ?_, ?_⟩
                  · simp [getTransformations, hm, hm2]
                  · exact h.symm
                  · rw [alget_alset_eq]
                  · intro s hs
                    rw [alget_alset_ne _ _ _ _ (Ne.symm hs)]
              | null => simp [hm2] at h
              | str s0 => simp [hm2] at h
              | int n0 => simp [hm2] at h
              | dict d0 => simp [hm2] at h
      | null => simp [hm] at h
      | str s0 => simp [hm] at h
      | int n0 => simp [hm] at h
      | arr l0 => simp [hm] at h

theorem record_transformation_log (doc : List (String × Val))
    (ts sf tf : String) (value : Val) (reason : Option String)
    (doc' : List (String × Val))
    (h : record_transformation doc ts sf tf value reason = some doc') :
    ∃ l, getTransformations doc = some l ∧
      getTransformations doc' =
        some (l ++ [mkTransformation ts sf tf value reason]) := by
  obtain ⟨l, mNew, hl, hd, htr, _⟩ :=
    record_transformation_struct doc ts sf tf value reason doc' h
  refine ⟨l, hl, ?_⟩
  rw [hd]
  simp only [getTransformations, alget_alset_eq, htr]

theorem record_transformation_preserves_nested (doc : List (String × Val))
    (ts sf tf : String) (value : Val) (reason : Option String)
    (doc' : List (String × Val))
    (h : record_transformation doc ts sf tf value reason = some doc')
    (keys : List String) (hsafe : log_safe_path keys = true) :
    getNestedVal (Val.dict doc') keys = getNestedVal (Val.dict doc) keys := by
  obtain ⟨l, mNew, hl, hd, htr, hother⟩ :=
    record_transformation_struct doc ts sf tf value reason doc' h
  cases keys with
  | nil => simp [log_safe_path] at hsafe
  | cons k ks =>
      by_cases hk : k = "metadata"
      · subst hk
        cases ks with
        | nil => simp [log_safe_path] at hsafe
        | cons s ks2 =>
            have hs : s ≠ "transformations" := by
              intro he
              subst he
              simp [log_safe_path] at hsafe
            rw [hd]
            simp only [getNestedVal, alget_alset_eq]
            rw [hother s hs]
            cases hm : alget doc "metadata" with
            | none => simp [getNestedVal, alget]
            | some v =>
                cases v with
                | dict m => simp [getNestedVal]
                | null => simp [getNestedVal, alget]
                | str s0 => simp [getNestedVal, alget]
                | int n0 => simp [getNestedVal, alget]
                | arr l0 => simp [getNestedVal, alget]
      · rw [hd]
        simp only [getNestedVal, alget_alset_ne doc "metadata" k (Val.dict mNew) (Ne.symm hk)]

theorem setNested_preserves_transformations (keys : List String) (value : Val)
    (d : List (String × Val)) (hsafe : log_safe_path keys = true) :
    getTransformations (setNested keys value d).2 = getTransformations d := by
  cases keys with
  | nil => simp [log_safe_path] at hsafe
  | cons k ks =>
      by_cases hk : k = "metadata"
      · subst hk
        cases ks with
        | nil => simp [log_safe_path] at hsafe
        | cons s ks2 =>
            have hs : s ≠ "transformations" := by
              intro he
              subst he
              simp [log_safe_path] at hsafe
            simp only [setNested]
            cases hm : alget d "metadata" with
            | none =>
                simp only [getTransformations, alget_alset_eq, hm]
                rw [setNested_alget_ne (s :: ks2) value []
                  "transformations" (by simp [hs])]
                simp [alget]
            | some v =>
                cases v with
                | dict m =>
                    simp only [getTransformations, alget_alset_eq, hm]
                    rw [setNested_alget_ne (s :: ks2) value m
                      "transformations" (by simp [hs])]
                | null => simp [getTransformations, hm]
                | str s0 => simp [getTransformations, hm]
                | int n0 => simp [getTransformations, hm]
                | arr l0 => simp [getTransformations, hm]
      · have := setNested_alget_ne (k :: ks) value d "metadata" (by simp [hk])
        simp only [getTransformations, this]

/-! ## Search and count (`src/db.py`, `search_satellites` / `count_satellites`)

The MongoDB filter dictionaries are modelled syntactically; a
case-insensitive regex condition `{"$regex": p, "$options": "i"}` is kept
as its pattern, and evaluation is parameterised by a regex-match oracle
`rm : pattern → field value → Bool` (regular-expression semantics are
outside the reconciliation core; both functions pass their patterns to
the same store). A regex condition matches only documents whose field
holds a string, as in MongoDB. The collection is modelled as the list of
its documents in natural order; `cursor.skip`/`cursor.limit` are
`List.drop`/`List.take` (exact for the positive limits used below). -/

inductive FilterVal where
  | orRegex (clauses : List (String × String))
  | regexI (pattern : String)

def query_or_clauses (q : String) : List (String × String) :=
  [("canonical.name", q), ("canonical.object_name", q),
   ("canonical.international_designator", q), ("canonical.registration_number", q)]

/-- One optional-filter argument: Python `if arg:` accepts a present,
non-empty string. -/
def optional_filter_entry (path : String) : Option String → List (String × FilterVal)
  | some s => if s != "" then [(path, FilterVal.regexI s)] else []
  | Option.none => []

/-- The filter dictionary built by `search_satellites` (query defaults to
`""`; `if query:` is `query ≠ ""`). -/
def search_filters (query : String)
    (country status orbital_band congestion_risk : Option String) :
    List (String × FilterVal) :=
  (if query != "" then [("$or", FilterVal.orRegex (query_or_clauses query))] else []) ++
  optional_filter_entry "canonical.country_of_origin" country ++
  optional_filter_entry "canonical.status" status ++
  optional_filter_entry "canonical.orbital_band" orbital_band ++
  optional_filter_entry "canonical.congestion_risk" congestion_risk

/-- The filter dictionary built by `count_satellites` (query defaults to
`None`; `if query:` is "present and non-empty"). -/
def count_filters (query : Option String)
    (country status orbital_band congestion_risk : Option String) :
    List (String × FilterVal) :=
  (match query with
   | some q => if q != "" then [("$or", FilterVal.orRegex (query_or_clauses q))] else []
   | Option.none => []) ++
  optional_filter_entry "canonical.country_of_origin" country ++
  optional_filter_entry "canonical.status" status ++
  optional_filter_entry "canonical.orbital_band" orbital_band ++
  optional_filter_entry "canonical.congestion_risk" congestion_risk

def regex_field_matches (rm : String → String → Bool)
    (doc : List (String × Val)) (path pattern : String) : Bool :=
  match getNestedVal (Val.dict doc) (splitPath path) with
  | Val.str s => rm pattern s
  | _ => false

def filter_matches (rm : String → String → Bool) (doc : List (String × Val)) :
    String × FilterVal → Bool
  | (path, FilterVal.regexI pattern) => regex_field_matches rm doc path pattern
  | (_, FilterVal.orRegex clauses) =>
      clauses.any (fun c => regex_field_matches rm doc c.1 c.2)

def doc_matches (rm : String → String → Bool) (filters : List (String × FilterVal))
    (doc : List (String × Val)) : Bool :=
  filters.all (filter_matches rm doc)

/-- `search_satellites` from `src/db.py` over a modelled collection. -/
def search_satellites (rm : String → String → Bool)
    (docs : List (List (String × Val))) (query : String)
    (country status orbital_band congestion_risk : Option String)
    (limit skip : Nat) : List (List (String × Val)) :=
  ((docs.filter
      (doc_matches rm (search_filters query country status orbital_band congestion_risk))).drop
    skip).take limit

/-- `count_satellites` from `src/db.py` over a modelled collection. -/
def count_satellites (rm : String → String → Bool)
    (docs : List (List (String × Val))) (query : Option String)
    (country status orbital_band congestion_risk : Option String) : Nat :=
  (docs.filter
    (doc_matches rm (count_filters query country status orbital_band congestion_risk))).length

theorem count_filters_eq_search_filters (query : Option String)
    (country status orbital_band congestion_risk : Option String) :
    count_filters query country status orbital_band congestion_risk =
      search_filters (query.getD "") country status orbital_band congestion_risk := by
  cases query with
  | none => simp [count_filters, search_filters]
  | some q => simp [count_filters, search_filters]

/-! ## Identifier normalizer (`src/import_celestrak_tle.py`,
`match_designator_format`)

Python strings are modelled as `List Char`. The character predicates
model `str.isalpha`/`str.isdigit` and the whitespace stripping of `int()`
on the ASCII range (designators and filter values are ASCII). -/

def pyIsDigit (c : Char) : Bool := 48 ≤ c.toNat && c.toNat ≤ 57

def pyIsAlpha (c : Char) : Bool :=
  (65 ≤ c.toNat && c.toNat ≤ 90) || (97 ≤ c.toNat && c.toNat ≤ 122)

def pyIsSpace (c : Char) : Bool :=
  c.toNat == 32 || c.toNat == 9 || c.toNat == 10 ||
    c.toNat == 13 || c.toNat == 11 || c.toNat == 12

/-- Python `s.strip()`: drop whitespace from both ends. -/
def pyStrip (l : List Char) : List Char :=
  ((l.dropWhile pyIsSpace).reverse.dropWhile pyIsSpace).reverse

/-- Value of a big-endian decimal digit string. -/
def digitsVal (l : List Char) : Nat :=
  l.foldl (fun a c => 10 * a + (c.toNat - 48)) 0

/-- The digit tail of a Python decimal literal after its first digit:
digits, with single underscores allowed only between digits. -/
def pyDigitsRest : List Char → Bool
  | [] => true
  | c :: rest =>
      if c = '_' then
        match rest with
        | c2 :: rest2 => pyIsDigit c2 && pyDigitsRest rest2
        | [] => false
      else pyIsDigit c && pyDigitsRest rest

/-- A valid Python decimal digit string (`1`, `007`, `1_000`, ...). -/
def pyDigitsOk : List Char → Bool
  | [] => false
  | c :: rest => pyIsDigit c && pyDigitsRest rest

/-- Parse a digit group: underscores are separators (`int("1_0") = 10`). -/
def pyIntDigits (l : List Char) : Option Nat :=
  if pyDigitsOk l then some (digitsVal (l.filter (fun c => c != '_'))) else Option.none

/-- Python `int(s)` on a decimal string: surrounding whitespace, one
optional sign, digits with underscores; `Option.none` models the
`ValueError` raised otherwise. -/
def pyInt (s : List Char) : Option Int :=
  match pyStrip s with
  | [] => Option.none
  | c :: rest =>
      if c = '+' then (pyIntDigits rest).map (fun n => (n : Int))
      else if c = '-' then (pyIntDigits rest).map (fun n => -(n : Int))
      else (pyIntDigits (c :: rest)).map (fun n => (n : Int))

/-- Decimal digits of a natural number, most significant first, via a
structurally decreasing fuel so that the definition computes by
reduction. `natRepr` supplies fuel `n + 1`, always sufficient. -/
def natReprAux : Nat → Nat → List Char
  | 0, _ => []
  | fuel + 1, n =>
      if n < 10 then [Char.ofNat (48 + n)]
      else natReprAux fuel (n / 10) ++ [Char.ofNat (48 + n % 10)]

/-- Python `str(n)` for a natural number. -/
def natRepr (n : Nat) : List Char := natReprAux (n + 1) n

/-- Python `str(i)` for an int. -/
def intRepr (i : Int) : List Char :=
  if i < 0 then '-' :: natRepr i.natAbs else natRepr i.toNat

/-- Zero-pad a string on the left to width 3. -/
def padZero3 (l : List Char) : List Char := List.replicate (3 - l.length) '0' ++ l

/-- Python `f"{i:0>3}"`: the rendered int, left-filled with `0` to
width 3. -/
def fmtPadFill3 (i : Int) : List Char := padZero3 (intRepr i)

/-- Python `f"{i:03d}"`: zero-padding goes between the sign and the
digits (it agrees with `fmtPadFill3` on the non-negative values that
occur here). -/
def fmt03d (i : Int) : List Char :=
  if i < 0 then
    '-' :: (List.replicate (2 - (natRepr i.natAbs).length) '0' ++ natRepr i.natAbs)
  else padZero3 (natRepr i.toNat)

/-- `match_designator_format(original_designator)` from
`src/import_celestrak_tle.py`. The whole body is wrapped in
`try/except: return None`; every raising subexpression (last character of
an empty part, failing `int()`) is modelled as `Option.none`. -/
def match_designator_format (s : List Char) : Option (List Char) :=
  if '-' ∈ s then
    match splitOnChar '-' s with
    | [year, rest] =>
        match rest.getLast? with
        | Option.none => Option.none
        | some lastc =>
            match pyInt (if pyIsAlpha lastc then rest.dropLast else rest) with
            | some n =>
                some (year.drop (year.length - 2) ++ fmtPadFill3 n ++
                  (if pyIsAlpha lastc then [lastc] else []))
            | Option.none => Option.none
    | _ => Option.none
  else
    if 5 ≤ s.length then
      match pyInt (s.take 2), pyInt ((s.drop 2).take 3) with
      | some y, some n =>
          some (intRepr (if 57 < y then y + 1900 else y + 2000) ++
            '-' :: (fmt03d n ++ s.drop 5))
      | some _, Option.none => Option.none
      | Option.none, _ => Option.none
    else Option.none

theorem toNat_ofNat_digit (n : Nat) (h : n < 10) :
    (Char.ofNat (48 + n)).toNat = 48 + n := by
  interval_cases n <;> decide

theorem ofNat_digit_isDigit (n : Nat) (h : n < 10) :
    pyIsDigit (Char.ofNat (48 + n)) = true := by
  interval_cases n <;> decide

theorem char_eq_of_digit_toNat (c : Char) (h : pyIsDigit c = true) :
    Char.ofNat (48 + (c.toNat - 48)) = c := by
  simp only [pyIsDigit, Bool.and_eq_true, decide_eq_true_eq] at h
  rw [Nat.add_sub_cancel' h.1]
  exact Char.ofNat_toNat c

theorem digit_toNat_lt (c : Char) (h : pyIsDigit c = true) : c.toNat - 48 < 10 := by
  simp only [pyIsDigit, Bool.and_eq_true, decide_eq_true_eq] at h
  omega

theorem natReprAux_irrel (fuel : Nat) : ∀ fuel' n, n < fuel → n < fuel' →
    natReprAux fuel n = natReprAux fuel' n := by
  induction fuel with
  | zero => intro fuel' n h; omega
  | succ f ih =>
      intro fuel' n h h'
      cases fuel' with
      | zero => omega
      | succ f' =>
          simp only [natReprAux]
          by_cases h10 : n < 10
          · simp [h10]
          · have hdiv : n / 10 < n := Nat.div_lt_self (by omega) (by omega)
            simp only [h10, if_false]
            rw [ih f' (n / 10) (by omega) (by omega)]

theorem natRepr_unfold (n : Nat) :
    natRepr n =
      if n < 10 then [Char.ofNat (48 + n)]
      else natRepr (n / 10) ++ [Char.ofNat (48 + n % 10)] := by
  have step : natReprAux (n + 1) n =
      if n < 10 then [Char.ofNat (48 + n)]
      else natReprAux n (n / 10) ++ [Char.ofNat (48 + n % 10)] := rfl
  show natReprAux (n + 1) n = _
  rw [step]
  by_cases h10 : n < 10
  · simp [h10]
  · have hdiv : n / 10 < n := Nat.div_lt_self (by omega) (by omega)
    simp only [h10, if_false]
    rw [natReprAux_irrel n (n / 10 + 1) (n / 10) (by omega) (by omega)]
    rfl

theorem natRepr_digits (n : Nat) : ∀ c ∈ natRepr n, pyIsDigit c = true := by
  induction n using Nat.strong_induction_on with
  | _ n ih =>
      rw [natRepr_unfold]
      by_cases h10 : n < 10
      · simp only [h10, if_true, List.mem_singleton]
        intro c hc
        subst hc
        exact ofNat_digit_isDigit n h10
      · have hdiv : n / 10 < n := Nat.div_lt_self (by omega) (by omega)
        simp only [h10, if_false, List.mem_append, List.mem_singleton]
        intro c hc
        rcases hc with hc | hc
        · exact ih (n / 10) hdiv c hc
        · subst hc
          exact ofNat_digit_isDigit (n % 10) (Nat.mod_lt n (by omega))

theorem natRepr_ne_nil (n : Nat) : natRepr n ≠ [] := by
  rw [natRepr_unfold]
  by_cases h10 : n < 10 <;> simp [h10]

theorem digitsVal_append_singleton (a : List Char) (c : Char) :
    digitsVal (a ++ [c]) = 10 * digitsVal a + (c.toNat - 48) := by
  simp [digitsVal, List.foldl_append]

theorem natRepr_val (n : Nat) : digitsVal (natRepr n) = n := by
  induction n using Nat.strong_induction_on with
  | _ n ih =>
      rw [natRepr_unfold]
      by_cases h10 : n < 10
      · simp only [h10, if_true]
        show digitsVal ([] ++ [Char.ofNat (48 + n)]) = n
        rw [digitsVal_append_singleton, toNat_ofNat_digit n h10]
        simp [digitsVal]
      · have hdiv : n / 10 < n := Nat.div_lt_self (by omega) (by omega)
        simp only [h10, if_false]
        rw [digitsVal_append_singleton, ih (n / 10) hdiv,
          toNat_ofNat_digit (n % 10) (Nat.mod_lt n (by omega))]
        omega

theorem digitsVal_foldl_acc (l : List Char) : ∀ acc : Nat,
    l.foldl (fun a c => 10 * a + (c.toNat - 48)) acc =
      acc * 10 ^ l.length + digitsVal l := by
  induction l with
  | nil => intro acc; simp [digitsVal]
  | cons c t ih =>
      intro acc
      show t.foldl _ (10 * acc + (c.toNat - 48)) = _
      rw [ih (10 * acc + (c.toNat - 48))]
      have : digitsVal (c :: t) = (c.toNat - 48) * 10 ^ t.length + digitsVal t := by
        show t.foldl _ (10 * 0 + (c.toNat - 48)) = _
        rw [ih (10 * 0 + (c.toNat - 48))]
        ring_nf
      rw [this]
      simp [List.length_cons]
      ring

theorem digitsVal_append (a b : List Char) :
    digitsVal (a ++ b) = digitsVal a * 10 ^ b.length + digitsVal b := by
  show (a ++ b).foldl _ 0 = _
  rw [List.foldl_append]
  exact digitsVal_foldl_acc b (digitsVal a)

theorem digitsVal_lt (l : List Char) (h : ∀ c ∈ l, pyIsDigit c = true) :
    digitsVal l < 10 ^ l.length := by
  induction l using List.reverseRecOn with
  | nil => simp [digitsVal]
  | append_singleton a c ih =>
      rw [digitsVal_append_singleton]
      have ha : digitsVal a < 10 ^ a.length := ih (fun x hx => h x (by simp [hx]))
      have hc : c.toNat - 48 < 10 := digit_toNat_lt c (h c (by simp))
      simp only [List.length_append, List.length_singleton]
      calc 10 * digitsVal a + (c.toNat - 48) < 10 * digitsVal a + 10 := by omega
        _ ≤ 10 * 10 ^ a.length := by omega
        _ = 10 ^ (a.length + 1) := by ring

theorem digitsVal_cons (c : Char) (t : List Char) :
    digitsVal (c :: t) = (c.toNat - 48) * 10 ^ t.length + digitsVal t := by
  rw [show c :: t = [c] ++ t from rfl, digitsVal_append]
  simp [digitsVal]

theorem digitsVal_head_pos (c : Char) (t : List Char)
    (hd : pyIsDigit c = true) (hc : c ≠ '0') : 1 ≤ digitsVal (c :: t) := by
  have h48 : c.toNat ≠ 48 := by
    intro he
    apply hc
    have := Char.ofNat_toNat c
    rw [he] at this
    rw [← this]
  have hge : 48 ≤ c.toNat := by
    simp only [pyIsDigit, Bool.and_eq_true, decide_eq_true_eq] at hd
    exact hd.1
  rw [digitsVal_cons]
  have h1 : 1 ≤ c.toNat - 48 := by omega
  have h2 : 1 ≤ 10 ^ t.length := Nat.one_le_pow _ _ (by omega)
  calc 1 ≤ 1 * 1 := by omega
    _ ≤ (c.toNat - 48) * 10 ^ t.length := Nat.mul_le_mul h1 h2
    _ ≤ _ := Nat.le_add_right _ _

/-- A digit string with a non-zero leading digit is the canonical decimal
representation of its value. -/
theorem natRepr_digitsVal (l : List Char) (hd : ∀ c ∈ l, pyIsDigit c = true)
    (hne : l ≠ []) (hh : l.head? ≠ some '0') : natRepr (digitsVal l) = l := by
  induction l using List.reverseRecOn with
  | nil => exact absurd rfl hne
  | append_singleton a c ih =>
      cases a with
      | nil =>
          have hdc : pyIsDigit c = true := hd c (by simp)
          have : digitsVal [c] = c.toNat - 48 := by simp [digitsVal]
          simp only [List.nil_append] at hh ⊢
          rw [this, natRepr_unfold]
          rw [if_pos (digit_toNat_lt c hdc)]
          rw [char_eq_of_digit_toNat c hdc]
      | cons a0 a' =>
          have hne' : a0 :: a' ≠ ([] : List Char) := by simp
          have hh' : (a0 :: a').head? ≠ some '0' := by
            simpa using hh
          have hd' : ∀ x ∈ a0 :: a', pyIsDigit x = true := by
            intro x hx
            apply hd x
            rcases List.mem_cons.mp hx with h1 | h1
            · simp [h1]
            · simp [h1]
          have hdc : pyIsDigit c = true := hd c (by simp)
          have hih := ih hd' hne' hh'
          rw [show a0 :: a' ++ [c] = (a0 :: a') ++ [c] from rfl,
            digitsVal_append_singleton]
          have hpos : 1 ≤ digitsVal (a0 :: a') :=
            digitsVal_head_pos a0 a' (hd' a0 (by simp)) (by
              intro he
              exact hh' (by simp [he]))
          have hlt : c.toNat - 48 < 10 := digit_toNat_lt c hdc
          rw [natRepr_unfold]
          rw [if_neg (by omega)]
          have hq : (10 * digitsVal (a0 :: a') + (c.toNat - 48)) / 10 =
              digitsVal (a0 :: a') := by omega
          have hr : (10 * digitsVal (a0 :: a') + (c.toNat - 48)) % 10 =
              c.toNat - 48 := by omega
          rw [hq, hr, hih, char_eq_of_digit_toNat c hdc]

theorem digitsVal_zeros (l : List Char) (h : ∀ c ∈ l, c = '0') :
    digitsVal l = 0 := by
  induction l with
  | nil => rfl
  | cons c t ih =>
      have hc : c = '0' := h c (by simp)
      subst hc
      show t.foldl _ (10 * 0 + ('0'.toNat - 48)) = 0
      have : (10 * 0 + ('0'.toNat - 48)) = 0 := by decide
      rw [this]
      exact ih (fun x hx => h x (by simp [hx]))

theorem dropWhile_head_not (p : Char → Bool) (l : List Char) (c : Char)
    (t : List Char) (h : l.dropWhile p = c :: t) : p c = false := by
  induction l with
  | nil => simp [List.dropWhile] at h
  | cons a l' ih =>
      rw [List.dropWhile_cons] at h
      by_cases hp : p a = true
      · rw [if_pos hp] at h
        exact ih h
      · rw [if_neg hp] at h
        cases h
        simpa using hp

/-- Key padding fact: rendering `int(q)` and left-zero-padding to width 3
gives the same string as zero-padding `q` itself, for digit strings of at
most 3 characters (parsing strips leading zeros, formatting restores
them). -/
theorem padZero3_natRepr (q : List Char) (hd : ∀ c ∈ q, pyIsDigit c = true)
    (hne : q ≠ []) (hlen : q.length ≤ 3) :
    padZero3 (natRepr (digitsVal q)) = padZero3 q := by
  have hsplit : q.takeWhile (fun c => c == '0') ++ q.dropWhile (fun c => c == '0') = q :=
    List.takeWhile_append_dropWhile (p := fun c => c == '0') (l := q)
  have hzeros : ∀ c ∈ q.takeWhile (fun c => c == '0'), c = '0' := by
    intro c hc
    have hp := List.mem_takeWhile_imp hc
    simpa using hp
  have hzrep : q.takeWhile (fun c => c == '0') =
      List.replicate (q.takeWhile (fun c => c == '0')).length '0' :=
    List.eq_replicate_of_mem hzeros
  have hvq : digitsVal q = digitsVal (q.dropWhile (fun c => c == '0')) := by
    conv_lhs => rw [← hsplit]
    rw [digitsVal_append, digitsVal_zeros _ hzeros]
    simp
  cases hr : q.dropWhile (fun c => c == '0') with
  | nil =>
      have hallz : ∀ c ∈ q, c = '0' := by
        intro c hc
        rw [← hsplit] at hc
        rcases List.mem_append.mp hc with h1 | h1
        · exact hzeros c h1
        · rw [hr] at h1
          simp at h1
      have hv0 : digitsVal q = 0 := digitsVal_zeros q hallz
      have hqrep : q = List.replicate q.length '0' := List.eq_replicate_of_mem hallz
      have hql : 1 ≤ q.length := by
        cases q with
        | nil => exact absurd rfl hne
        | cons _ _ => simp
      rw [hv0]
      have h1 : padZero3 (natRepr 0) = List.replicate 3 '0' := by decide
      rw [h1]
      unfold padZero3
      conv_rhs => rw [hqrep]
      simp only [List.length_replicate]
      rw [← List.replicate_add]
      congr 1
      omega
  | cons r0 rt =>
      have hrd : ∀ c ∈ r0 :: rt, pyIsDigit c = true := by
        intro c hc
        rw [← hr] at hc
        exact hd c (List.dropWhile_subset _ hc)
      have hr0 : r0 ≠ '0' := by
        have := dropWhile_head_not (fun c => c == '0') q r0 rt hr
        simpa using this
      have hcan : natRepr (digitsVal (r0 :: rt)) = r0 :: rt :=
        natRepr_digitsVal (r0 :: rt) hrd (by simp) (by simpa using hr0)
      have hlen2 : (q.takeWhile (fun c => c == '0')).length + (r0 :: rt).length =
          q.length := by
        have hq := congrArg List.length hsplit
        rw [hr] at hq
        simpa using hq
      rw [hvq, hr, hcan]
      unfold padZero3
      conv_rhs => rw [← hsplit, hr, hzrep]
      simp only [List.length_append, List.length_replicate]
      rw [← List.append_assoc, ← List.replicate_add]
      congr 2
      omega

theorem natRepr_length_four (n : Nat) (h1 : 1000 ≤ n) (h2 : n < 10000) :
    (natRepr n).length = 4 := by
  have l1 : ∀ m : Nat, m < 10 → (natRepr m).length = 1 := by
    intro m hm
    rw [natRepr_unfold, if_pos hm]
    rfl
  have l2 : ∀ m : Nat, 10 ≤ m → m < 100 → (natRepr m).length = 2 := by
    intro m hm1 hm2
    rw [natRepr_unfold, if_neg (by omega)]
    rw [List.length_append, l1 (m / 10) (by omega)]
    rfl
  have l3 : ∀ m : Nat, 100 ≤ m → m < 1000 → (natRepr m).length = 3 := by
    intro m hm1 hm2
    rw [natRepr_unfold, if_neg (by omega)]
    rw [List.length_append, l2 (m / 10) (by omega) (by omega)]
    rfl
  rw [natRepr_unfold, if_neg (by omega)]
  rw [List.length_append, l3 (n / 10) (by omega) (by omega)]
  rfl

theorem digit_not_space (c : Char) (h : pyIsDigit c = true) : pyIsSpace c = false := by
  simp only [pyIsDigit, Bool.and_eq_true, decide_eq_true_eq] at h
  simp only [pyIsSpace, Bool.or_eq_false_iff, beq_eq_false_iff_ne]
  omega

theorem digit_toNat_ne (c : Char) (h : pyIsDigit c = true) (m : Nat)
    (hm : m < 48 ∨ 57 < m) : c.toNat ≠ m := by
  simp only [pyIsDigit, Bool.and_eq_true, decide_eq_true_eq] at h
  omega

theorem char_ne_of_toNat_ne (c d : Char) (h : c.toNat ≠ d.toNat) : c ≠ d := by
  intro he
  exact h (by rw [he])

theorem digit_ne_char (c : Char) (h : pyIsDigit c = true) (d : Char)
    (hd : d.toNat < 48 ∨ 57 < d.toNat) : c ≠ d :=
  char_ne_of_toNat_ne c d (digit_toNat_ne c h d.toNat hd)

theorem dropWhile_eq_self_of_all (p : Char → Bool) (l : List Char)
    (h : ∀ c ∈ l, p c = false) : l.dropWhile p = l := by
  cases l with
  | nil => rfl
  | cons c t => rw [List.dropWhile_cons, if_neg (by simp [h c (by simp)])]

theorem pyStrip_eq_self (l : List Char) (h : ∀ c ∈ l, pyIsSpace c = false) :
    pyStrip l = l := by
  unfold pyStrip
  rw [dropWhile_eq_self_of_all pyIsSpace l h]
  rw [dropWhile_eq_self_of_all pyIsSpace l.reverse
    (fun c hc => h c (List.mem_reverse.mp hc))]
  exact List.reverse_reverse l

theorem pyDigitsRest_of_digits (l : List Char) (h : ∀ c ∈ l, pyIsDigit c = true) :
    pyDigitsRest l = true := by
  induction l with
  | nil => rfl
  | cons c t ih =>
      have hc : pyIsDigit c = true := h c (by simp)
      have hne : c ≠ '_' := digit_ne_char c hc '_' (by decide)
      rw [pyDigitsRest.eq_def]
      dsimp only
      rw [if_neg hne, hc, ih (fun x hx => h x (by simp [hx]))]
      rfl

theorem filter_underscore_of_digits (l : List Char) (h : ∀ c ∈ l, pyIsDigit c = true) :
    l.filter (fun c => c != '_') = l := by
  rw [List.filter_eq_self]
  intro c hc
  simp [digit_ne_char c (h c hc) '_' (by decide)]

/-- `int()` on a plain digit string parses to its decimal value. -/
theorem pyInt_digits (l : List Char) (h : ∀ c ∈ l, pyIsDigit c = true)
    (hne : l ≠ []) : pyInt l = some (digitsVal l : Int) := by
  unfold pyInt
  rw [pyStrip_eq_self l (fun c hc => digit_not_space c (h c hc))]
  cases l with
  | nil => exact absurd rfl hne
  | cons c t =>
      have hc : pyIsDigit c = true := h c (by simp)
      dsimp only
      rw [if_neg (digit_ne_char c hc '+' (by decide)),
        if_neg (digit_ne_char c hc '-' (by decide))]
      unfold pyIntDigits
      rw [if_pos (by
        rw [pyDigitsOk, hc, pyDigitsRest_of_digits t (fun x hx => h x (by simp [hx]))]
        rfl)]
      rw [filter_underscore_of_digits _ h]
      simp

theorem splitOnChar_not_mem (sep : Char) (l : List Char) (h : sep ∉ l) :
    splitOnChar sep l = [l] := by
  induction l with
  | nil => rfl
  | cons c t ih =>
      have hc : c ≠ sep := by
        intro he
        exact h (by simp [he])
      rw [splitOnChar, if_neg hc, ih (fun hm => h (by simp [hm]))]

theorem splitOnChar_append (sep : Char) (a b : List Char) (h : sep ∉ a) :
    splitOnChar sep (a ++ sep :: b) = a :: splitOnChar sep b := by
  induction a with
  | nil => simp [splitOnChar]
  | cons c t ih =>
      have hc : c ≠ sep := by
        intro he
        exact h (by simp [he])
      rw [List.cons_append, splitOnChar, if_neg hc,
        ih (fun hm => h (by simp [hm]))]

theorem digit_not_alpha (c : Char) (h : pyIsDigit c = true) : pyIsAlpha c = false := by
  simp only [pyIsDigit, Bool.and_eq_true, decide_eq_true_eq] at h
  simp only [pyIsAlpha, Bool.or_eq_false_iff, Bool.and_eq_false_iff,
    decide_eq_false_iff_not]
  omega

theorem alpha_ne_dash (c : Char) (h : pyIsAlpha c = true) : c ≠ '-' := by
  simp only [pyIsAlpha, Bool.or_eq_true, Bool.and_eq_true, decide_eq_true_eq] at h
  apply char_ne_of_toNat_ne
  have : ('-').toNat = 45 := rfl
  omega

theorem not_dash_of_digits (l : List Char) (h : ∀ c ∈ l, pyIsDigit c = true) :
    '-' ∉ l := by
  intro hm
  have := h '-' hm
  simp [pyIsDigit] at this

theorem padZero3_digits (q : List Char) (h : ∀ c ∈ q, pyIsDigit c = true) :
    ∀ c ∈ padZero3 q, pyIsDigit c = true := by
  intro c hc
  rcases List.mem_append.mp hc with h1 | h1
  · rw [List.eq_of_mem_replicate h1]
    decide
  · exact h c h1

theorem padZero3_length (q : List Char) (h1 : q.length ≤ 3) :
    (padZero3 q).length = 3 := by
  simp only [padZero3, List.length_append, List.length_replicate]
  omega

theorem padZero3_of_length_three (q : List Char) (h : q.length = 3) :
    padZero3 q = q := by
  simp [padZero3, h]

theorem digitsVal_padZero3 (q : List Char) :
    digitsVal (padZero3 q) = digitsVal q := by
  unfold padZero3
  rw [digitsVal_append]
  rw [digitsVal_zeros _ (fun c hc => List.eq_of_mem_replicate hc)]
  simp

theorem intRepr_natCast (n : Nat) : intRepr (n : Int) = natRepr n := by
  unfold intRepr
  rw [if_neg (by omega)]
  simp

theorem fmt03d_natCast (n : Nat) : fmt03d (n : Int) = padZero3 (natRepr n) := by
  unfold fmt03d
  rw [if_neg (by omega)]
  simp

theorem fmtPadFill3_natCast (n : Nat) : fmtPadFill3 (n : Int) = padZero3 (natRepr n) := by
  unfold fmtPadFill3
  rw [intRepr_natCast]

/-- Long form to short form: `YYYY-NNNX` with a 4-digit year, a numeric
sequence of at most 3 digits, and an optional alphabetic piece letter is
converted to last-two-year-digits ++ zero-padded-sequence ++ piece. -/
theorem designator_long_to_short (y : Nat) (q piece : List Char)
    (hy1 : 1958 ≤ y) (hy2 : y ≤ 2057)
    (hq : ∀ c ∈ q, pyIsDigit c = true) (hqne : q ≠ []) (hqlen : q.length ≤ 3)
    (hp : piece = [] ∨ ∃ c, piece = [c] ∧ pyIsAlpha c = true) :
    match_designator_format (natRepr y ++ '-' :: (q ++ piece)) =
      some ((natRepr y).drop 2 ++ (padZero3 q ++ piece)) := by
  have hylen : (natRepr y).length = 4 :=
    natRepr_length_four y (by omega) (by omega)
  have hydig : ∀ c ∈ natRepr y, pyIsDigit c = true := natRepr_digits y
  have hdash : '-' ∈ natRepr y ++ '-' :: (q ++ piece) := by simp
  have hqdash : '-' ∉ q ++ piece := by
    intro hm
    rcases List.mem_append.mp hm with h1 | h1
    · exact not_dash_of_digits q hq h1
    · rcases hp with hp | ⟨pc, hp, hpc⟩
      · rw [hp] at h1
        simp at h1
      · rw [hp] at h1
        rw [List.mem_singleton] at h1
        exact alpha_ne_dash pc hpc h1.symm
  have hsplit : splitOnChar '-' (natRepr y ++ '-' :: (q ++ piece)) =
      [natRepr y, q ++ piece] := by
    rw [splitOnChar_append '-' (natRepr y) (q ++ piece)
      (not_dash_of_digits _ hydig)]
    rw [splitOnChar_not_mem '-' (q ++ piece) hqdash]
  unfold match_designator_format
  rw [if_pos hdash, hsplit]
  have hv : pyInt q = some (digitsVal q : Int) := pyInt_digits q hq hqne
  have hpad : fmtPadFill3 (digitsVal q : Int) = padZero3 q := by
    rw [fmtPadFill3_natCast, padZero3_natRepr q hq hqne hqlen]
  dsimp only
  rw [hylen]
  rcases hp with hp | ⟨pc, hp, hpc⟩
  · subst hp
    rw [List.append_nil]
    obtain ⟨t, a, hqe⟩ := (List.eq_nil_or_concat q).resolve_left hqne
    rw [List.concat_eq_append] at hqe
    have hlast : q.getLast? = some a := by
      rw [hqe]
      exact List.getLast?_concat t
    rw [hlast]
    have hadig : pyIsDigit a = true := hq a (by rw [hqe]; simp)
    have hana : pyIsAlpha a = false := digit_not_alpha a hadig
    simp [hana, hv, hpad]
  · subst hp
    have hlast : (q ++ [pc]).getLast? = some pc := List.getLast?_concat q
    rw [hlast]
    simp [hpc, List.dropLast_concat, hv, hpad]

/-- Short form to long form: the short form produced from a valid long
designator parses back, the two-digit year is disambiguated around 57,
and the sequence keeps its three-digit zero-padded rendering. -/
theorem designator_short_to_long (y : Nat) (q piece : List Char)
    (hy1 : 1958 ≤ y) (hy2 : y ≤ 2057)
    (hq : ∀ c ∈ q, pyIsDigit c = true) (hqne : q ≠ []) (hqlen : q.length ≤ 3)
    (hp : piece = [] ∨ ∃ c, piece = [c] ∧ pyIsAlpha c = true) :
    match_designator_format ((natRepr y).drop 2 ++ (padZero3 q ++ piece)) =
      some (natRepr y ++ '-' :: (padZero3 q ++ piece)) := by
  have hylen : (natRepr y).length = 4 :=
    natRepr_length_four y (by omega) (by omega)
  have hydig : ∀ c ∈ natRepr y, pyIsDigit c = true := natRepr_digits y
  have hy2dig : ∀ c ∈ (natRepr y).drop 2, pyIsDigit c = true :=
    fun c hc => hydig c (List.drop_subset 2 (natRepr y) hc)
  have hy2len : ((natRepr y).drop 2).length = 2 := by
    rw [List.length_drop, hylen]
  have hp3dig : ∀ c ∈ padZero3 q, pyIsDigit c = true := padZero3_digits q hq
  have hp3len : (padZero3 q).length = 3 := padZero3_length q hqlen
  have hpieceok : ∀ c ∈ piece, c ≠ '-' := by
    intro c hc
    rcases hp with hp | ⟨pc, hp, hpc⟩
    · rw [hp] at hc
      simp at hc
    · rw [hp, List.mem_singleton] at hc
      subst hc
      exact alpha_ne_dash c hpc
  have hnodash : '-' ∉ (natRepr y).drop 2 ++ (padZero3 q ++ piece) := by
    intro hm
    rcases List.mem_append.mp hm with h1 | h1
    · exact not_dash_of_digits _ hy2dig h1
    · rcases List.mem_append.mp h1 with h2 | h2
      · exact not_dash_of_digits _ hp3dig h2
      · exact hpieceok '-' h2 rfl
  have hslen : 5 ≤ ((natRepr y).drop 2 ++ (padZero3 q ++ piece)).length := by
    simp only [List.length_append, hy2len, hp3len]
    omega
  have htake2 : ((natRepr y).drop 2 ++ (padZero3 q ++ piece)).take 2 =
      (natRepr y).drop 2 := List.take_left' hy2len
  have hdrop2 : ((natRepr y).drop 2 ++ (padZero3 q ++ piece)).drop 2 =
      padZero3 q ++ piece := List.drop_left' hy2len
  have htake3 : (padZero3 q ++ piece).take 3 = padZero3 q := List.take_left' hp3len
  have hdrop5 : ((natRepr y).drop 2 ++ (padZero3 q ++ piece)).drop 5 = piece := by
    rw [← List.append_assoc]
    exact List.drop_left' (by rw [List.length_append, hy2len, hp3len])
  have hy2ne : (natRepr y).drop 2 ≠ [] := by
    intro he
    rw [he] at hy2len
    simp at hy2len
  have hp3ne : padZero3 q ≠ [] := by
    intro he
    rw [he] at hp3len
    simp at hp3len
  have hvy2 : pyInt ((natRepr y).drop 2) =
      some (digitsVal ((natRepr y).drop 2) : Int) :=
    pyInt_digits _ hy2dig hy2ne
  have hvp3 : pyInt (padZero3 q) = some (digitsVal (padZero3 q) : Int) :=
    pyInt_digits _ hp3dig hp3ne
  have hmod : digitsVal ((natRepr y).drop 2) = y % 100 := by
    have hsplitY : (natRepr y).take 2 ++ (natRepr y).drop 2 = natRepr y :=
      List.take_append_drop 2 (natRepr y)
    have happ := digitsVal_append ((natRepr y).take 2) ((natRepr y).drop 2)
    rw [hsplitY, natRepr_val, hy2len] at happ
    have hlt : digitsVal ((natRepr y).drop 2) < 10 ^ 2 := by
      have := digitsVal_lt ((natRepr y).drop 2) hy2dig
      rwa [hy2len] at this
    have hpow : (10:Nat) ^ 2 = 100 := by norm_num
    rw [hpow] at happ hlt
    omega
  have hpadq : padZero3 (natRepr (digitsVal q)) = padZero3 q :=
    padZero3_natRepr q hq hqne hqlen
  have hvq : digitsVal (padZero3 q) = digitsVal q := digitsVal_padZero3 q
  unfold match_designator_format
  rw [if_neg hnodash, if_pos hslen, htake2]
  rw [hdrop2, htake3, hvy2, hvp3, hmod, hvq, hdrop5]
  dsimp only
  by_cases hc : y < 2000
  · have h57 : (57 : Int) < ((y % 100 : Nat) : Int) := by
      have : 57 < y % 100 := by omega
      exact_mod_cast this
    rw [if_pos h57]
    have hyear : ((y % 100 : Nat) : Int) + 1900 = (y : Int) := by
      have : y % 100 = y - 1900 := by omega
      rw [this]
      omega
    rw [hyear, intRepr_natCast, fmt03d_natCast, hpadq]
  · have h57 : ¬ (57 : Int) < ((y % 100 : Nat) : Int) := by
      have : y % 100 ≤ 57 := by omega
      simp only [not_lt]
      exact_mod_cast this
    rw [if_neg h57]
    have hyear : ((y % 100 : Nat) : Int) + 2000 = (y : Int) := by
      have : y % 100 = y - 2000 := by omega
      rw [this]
      omega
    rw [hyear, intRepr_natCast, fmt03d_natCast, hpadq]

/-! ## Filter expressions (`src/promote_attributes.py`, `parse_filter`)

A parsed filter value is an int, a float or a string; a Python float
object is represented by the accepted literal (float arithmetic plays no
role in the claims, only which branch accepted the value). -/

inductive PyVal where
  | int (n : Int)
  | float (lit : List Char)
  | str (s : List Char)
deriving DecidableEq

/-- Split at the first character satisfying `p`: returns the part before
it and, when found, the part after it (Python `s.split(sep, 1)` and the
scan for `"." in s`). -/
def splitFirst (p : Char → Bool) : List Char → List Char × Option (List Char)
  | [] => ([], Option.none)
  | c :: rest =>
      if p c then ([], some rest)
      else
        match splitFirst p rest with
        | (a, b) => (c :: a, b)

def toLowerAscii (c : Char) : Char :=
  if 65 ≤ c.toNat && c.toNat ≤ 90 then Char.ofNat (c.toNat + 32) else c

/-- `float()` accepts `inf`/`infinity`/`nan` in any case. -/
def pyInfNan (l : List Char) : Bool :=
  l.map toLowerAscii == "inf".toList ||
    l.map toLowerAscii == "infinity".toList ||
    l.map toLowerAscii == "nan".toList

def pyMantissaOk (m : List Char) : Bool :=
  match splitFirst (fun c => c == '.') m with
  | (ip, Option.none) => pyDigitsOk ip
  | (ip, some fp) =>
      if '.' ∈ fp then false
      else (pyDigitsOk ip || ip == ([] : List Char)) &&
        (pyDigitsOk fp || fp == ([] : List Char)) &&
        !(ip == ([] : List Char) && fp == ([] : List Char))

def pyExpOk : List Char → Bool
  | [] => false
  | c :: rest =>
      if c = '+' || c = '-' then pyDigitsOk rest else pyDigitsOk (c :: rest)

def pyFloatNumericOk (l : List Char) : Bool :=
  match splitFirst (fun c => c == 'e' || c == 'E') l with
  | (mant, Option.none) => pyMantissaOk mant
  | (mant, some ex) => pyMantissaOk mant && pyExpOk ex

def pyFloatBodyOk (l : List Char) : Bool := pyInfNan l || pyFloatNumericOk l

/-- Python `float(s)` accepts `s`: surrounding whitespace, optional sign,
then a decimal/exponent literal or an infinity/NaN word. -/
def pyFloatOk (s : List Char) : Bool :=
  match pyStrip s with
  | [] => false
  | c :: rest =>
      if c = '+' || c = '-' then pyFloatBodyOk rest else pyFloatBodyOk (c :: rest)

/-- The value conversion in `parse_filter` (lines 200-208 of
`src/promote_attributes.py`): values containing a `.` are tried as
floats, all others as ints, and on `ValueError` the string is kept. -/
def convert_value (v : List Char) : PyVal :=
  if '.' ∈ v then (if pyFloatOk v then PyVal.float v else PyVal.str v)
  else
    match pyInt v with
    | some n => PyVal.int n
    | Option.none => PyVal.str v

/-- The loop of `parse_filter` over the comma-separated, stripped parts;
the accumulator is the `query` dict. A part without `=` raises
`ValueError`, modelled as `Option.none` for the whole call. -/
def parse_filter_go : List (List Char) → List (List Char × PyVal) →
    Option (List (List Char × PyVal))
  | [], query => some query
  | part :: rest, query =>
      if '=' ∈ part then
        match splitFirst (fun c => c == '=') part with
        | (f, some v) =>
            parse_filter_go rest
              (alset query (pyStrip f) (convert_value (pyStrip v)))
        | (_, Option.none) => Option.none
      else Option.none

/-- `parse_filter(filter_str)` from `src/promote_attributes.py`. -/
def parse_filter (s : List Char) : Option (List (List Char × PyVal)) :=
  if s = [] then some []
  else parse_filter_go ((splitOnChar ',' s).map pyStrip) []

/-- The conversion rule the specification describes: try int first, then
float, else keep the string (written from the spec's words, for
comparison with `convert_value`). -/
def spec_convert_value (v : List Char) : PyVal :=
  match pyInt v with
  | some n => PyVal.int n
  | Option.none => if pyFloatOk v then PyVal.float v else PyVal.str v

def stripFront (l : List Char) : List Char := l.dropWhile pyIsSpace

def stripBack (l : List Char) : List Char :=
  (l.reverse.dropWhile pyIsSpace).reverse

theorem pyStrip_eq (l : List Char) : pyStrip l = stripBack (stripFront l) := rfl

theorem dropWhile_idem (p : Char → Bool) (l : List Char) :
    (l.dropWhile p).dropWhile p = l.dropWhile p := by
  induction l with
  | nil => rfl
  | cons c t ih =>
      rw [List.dropWhile_cons]
      by_cases hp : p c = true
      · rw [if_pos hp]
        exact ih
      · rw [if_neg hp, List.dropWhile_cons,
          if_neg hp]

theorem stripFront_idem (l : List Char) : stripFront (stripFront l) = stripFront l :=
  dropWhile_idem pyIsSpace l

theorem stripBack_idem (l : List Char) : stripBack (stripBack l) = stripBack l := by
  unfold stripBack
  rw [List.reverse_reverse, dropWhile_idem]

theorem dropWhile_append_of_not_head (p : Char → Bool) (a : List Char) (c : Char)
    (b : List Char) (hc : p c = false) :
    (a ++ c :: b).dropWhile p = a.dropWhile p ++ c :: b := by
  rw [List.dropWhile_append]
  by_cases he : (a.dropWhile p).isEmpty = true
  · rw [if_pos he, List.dropWhile_cons, if_neg (by simp [hc])]
    rw [List.isEmpty_iff] at he
    rw [he]
    rfl
  · rw [if_neg he]

theorem stripFront_append_eq (a : List Char) (c : Char) (b : List Char)
    (hc : pyIsSpace c = false) :
    stripFront (a ++ c :: b) = stripFront a ++ c :: b :=
  dropWhile_append_of_not_head pyIsSpace a c b hc

theorem stripBack_append_eq (a : List Char) (c : Char) (b : List Char)
    (hc : pyIsSpace c = false) :
    stripBack (a ++ c :: b) = a ++ c :: stripBack b := by
  unfold stripBack
  rw [List.reverse_append, List.reverse_cons]
  rw [List.append_assoc, List.singleton_append]
  rw [dropWhile_append_of_not_head pyIsSpace b.reverse c a.reverse hc]
  rw [List.reverse_append, List.reverse_cons, List.reverse_reverse]
  rw [List.append_assoc, List.singleton_append]

theorem stripBack_cons_of_not (c : Char) (t : List Char) (hc : pyIsSpace c = false) :
    stripBack (c :: t) = c :: stripBack t := by
  have := stripBack_append_eq [] c t hc
  simpa using this

theorem dropWhile_append_of_empty (p : Char → Bool) (a b : List Char)
    (h : a.dropWhile p = []) : (a ++ b).dropWhile p = b.dropWhile p := by
  rw [List.dropWhile_append, h]
  rfl

theorem strip_commute (l : List Char) :
    stripFront (stripBack l) = stripBack (stripFront l) := by
  induction l with
  | nil => rfl
  | cons c t ih =>
      by_cases hp : pyIsSpace c = true
      · have hsf : stripFront (c :: t) = stripFront t := by
          unfold stripFront
          rw [List.dropWhile_cons, if_pos hp]
        rw [hsf, ← ih]
        by_cases hbt : t.reverse.dropWhile pyIsSpace = []
        · have h1 : stripBack (c :: t) = [] := by
            unfold stripBack
            rw [List.reverse_cons]
            rw [dropWhile_append_of_empty pyIsSpace t.reverse [c] hbt]
            rw [List.dropWhile_cons, if_pos hp]
            rfl
          have h2 : stripBack t = [] := by
            unfold stripBack
            rw [hbt]
            rfl
          rw [h1, h2]
        · have h1 : stripBack (c :: t) = c :: stripBack t := by
            unfold stripBack
            rw [List.reverse_cons, List.dropWhile_append]
            rw [if_neg (by simpa [List.isEmpty_iff] using hbt)]
            rw [List.reverse_append]
            simp
          rw [h1]
          unfold stripFront
          rw [List.dropWhile_cons, if_pos hp]
      · have hp' : pyIsSpace c = false := by simpa using hp
        have hsf : stripFront (c :: t) = c :: t := by
          unfold stripFront
          rw [List.dropWhile_cons, if_neg (by simp [hp'])]
        rw [hsf, stripBack_cons_of_not c t hp']
        unfold stripFront
        rw [List.dropWhile_cons, if_neg (by simp [hp'])]

theorem pyStrip_stripFront (l : List Char) : pyStrip (stripFront l) = pyStrip l := by
  rw [pyStrip_eq, pyStrip_eq, stripFront_idem]

theorem pyStrip_stripBack (l : List Char) : pyStrip (stripBack l) = pyStrip l := by
  rw [pyStrip_eq, pyStrip_eq, strip_commute, stripBack_idem]

theorem splitFirst_append (p : Char → Bool) (a : List Char) (c0 : Char)
    (b : List Char) (ha : ∀ c ∈ a, p c = false) (hc : p c0 = true) :
    splitFirst p (a ++ c0 :: b) = (a, some b) := by
  induction a with
  | nil => simp [splitFirst, hc]
  | cons c t ih =>
      rw [List.cons_append, splitFirst, if_neg (by simp [ha c (by simp)])]
      rw [ih (fun x hx => ha x (by simp [hx]))]

/-- A single `field=value` filter entry parses to the stripped field name
bound to the converted stripped value. -/
theorem parse_filter_single (f v : List Char)
    (hfc : ',' ∉ f) (hvc : ',' ∉ v) (hfe : '=' ∉ f) :
    parse_filter (f ++ '=' :: v) =
      some [(pyStrip f, convert_value (pyStrip v))] := by
  have hne : f ++ '=' :: v ≠ [] := by simp
  have hnc : ',' ∉ f ++ '=' :: v := by
    intro hm
    rcases List.mem_append.mp hm with h1 | h1
    · exact hfc h1
    · rcases List.mem_cons.mp h1 with h2 | h2
      · simp at h2
      · exact hvc h2
  unfold parse_filter
  rw [if_neg hne]
  rw [splitOnChar_not_mem ',' _ hnc]
  simp only [List.map_cons, List.map_nil]
  have heq : pyStrip (f ++ '=' :: v) = stripFront f ++ '=' :: stripBack v := by
    rw [pyStrip_eq, stripFront_append_eq f '=' v (by decide)]
    rw [stripBack_append_eq (stripFront f) '=' v (by decide)]
  rw [heq]
  have hmem : '=' ∈ stripFront f ++ '=' :: stripBack v := by simp
  have hsp : splitFirst (fun c => c == '=') (stripFront f ++ '=' :: stripBack v) =
      (stripFront f, some (stripBack v)) := by
    apply splitFirst_append
    · intro c hcm
      have hcf : c ∈ f := List.dropWhile_subset _ hcm
      have : c ≠ '=' := by
        intro he
        exact hfe (he ▸ hcf)
      simp [this]
    · simp
  rw [parse_filter_go, if_pos hmem, hsp]
  dsimp only
  rw [pyStrip_stripFront, pyStrip_stripBack]
  rfl

/-! ## Claim theorems -/

theorem alget_isSome_iff_mem_keys {α β : Type} [DecidableEq α]
    (d : List (α × β)) (k : α) :
    (alget d k).isSome = true ↔ k ∈ d.map Prod.fst := by
  induction d with
  | nil => simp [alget]
  | cons kv rest ih =>
      by_cases hk : kv.1 = k
      · simp [alget, hk]
      · simp [alget, hk, ih, Ne.symm hk]

/-- C1: for every envelope, `update_canonical` sets each scalar canonical
field to the value of the first source in the effective priority order
whose value for that field is present and not the empty string, stopping
at the first hit; if no source supplies a present-and-non-empty value the
field is absent from canonical. (The two concrete examples of the claim
are checked in the witness.) -/
theorem c1_scalar_priority_first_hit (cfg : Option (List String))
    (sources : List (String × SrcRecord)) (ts : String) (f : String)
    (hf : f ∈ canonical_fields) :
    alget (update_canonical_map cfg sources ts) f =
      first_present_nonempty
        (effective_priority (cfg.getD default_source_priority) sources) sources f := by
  rw [update_canonical_map_scalar cfg sources ts f hf, pick_first_eq_spec]

theorem c1_scalar_priority_first_hit_witness :
    alget (update_canonical_map Option.none
      [("unoosa", [("status", Val.str "A")]), ("kaggle", [("status", Val.str "B")])]
      "t") "status" = some (Val.str "A") ∧
    alget (update_canonical_map Option.none
      [("celestrak", [("status", Val.str "B")])] "t") "status" =
      some (Val.str "B") :=
  ⟨(c1_scalar_priority_first_hit Option.none
      [("unoosa", [("status", Val.str "A")]), ("kaggle", [("status", Val.str "B")])]
      "t" "status" (by decide)).trans rfl,
   (c1_scalar_priority_first_hit Option.none
      [("celestrak", [("status", Val.str "B")])] "t" "status" (by decide)).trans rfl⟩

/-- C2 (counterexample): an empty string in a higher-priority source's
orbit field does shadow a lower-priority source's real value — the
orbital loop only tests `value is not None` — while the scalar `status`
behaves as claimed. This refutes the claim's "the same holds when the
empty string occurs in an orbit or tle field". -/
theorem c2_empty_string_orbit_counterexample :
    alget (update_canonical_map Option.none
      [("unoosa", [("apogee_km", Val.str "")]),
       ("celestrak", [("apogee_km", Val.int 500)])] "t") "orbit" =
      some (Val.dict [("apogee_km", Val.str "")]) ∧
    Val.str "" ≠ Val.int 500 ∧
    alget (update_canonical_map Option.none
      [("unoosa", [("status", Val.str "")]),
       ("celestrak", [("status", Val.str "X")])] "t") "status" =
      some (Val.str "X") :=
  ⟨rfl, fun h => Val.noConfusion h, rfl⟩

/-- C2 (amended): for scalar canonical fields a `None` or empty-string
value in a higher-priority source is treated as absent and never shadows
a lower-priority source's real value; for the nested orbit (and tle)
fields only `None` is treated as absent — an empty string there does
win. -/
theorem c2_empty_value_shadow_amended (cfg : Option (List String))
    (sources : List (String × SrcRecord)) (ts : String) :
    (∀ f ∈ canonical_fields,
      alget (update_canonical_map cfg sources ts) f =
        first_present_nonempty
          (effective_priority (cfg.getD default_source_priority) sources) sources f) ∧
    (∀ f ∈ orbital_fields,
      getNestedVal (Val.dict (update_canonical_map cfg sources ts)) ["orbit", f] =
        (first_present_not_null
          (effective_priority (cfg.getD default_source_priority) sources) sources
          f).getD Val.null) ∧
    getNestedVal (Val.dict (update_canonical_map cfg sources ts)) ["tle", "line1"] =
      (first_present_not_null
        (effective_priority (cfg.getD default_source_priority) sources) sources
        "tle_line1").getD Val.null ∧
    getNestedVal (Val.dict (update_canonical_map cfg sources ts)) ["tle", "line2"] =
      (first_present_not_null
        (effective_priority (cfg.getD default_source_priority) sources) sources
        "tle_line2").getD Val.null := by
  refine ⟨?_, ?_, ?_, ?_⟩
  · intro f hf
    rw [update_canonical_map_scalar cfg sources ts f hf, pick_first_eq_spec]
  · intro f hf
    rw [getNestedVal, update_canonical_map_orbit cfg sources ts]
    dsimp only
    rw [getNestedVal, alget_filterMap_mem orbital_fields _ f hf (by decide),
      pick_first_eq_spec_not_null]
    cases first_present_not_null
        (effective_priority (cfg.getD default_source_priority) sources) sources f with
    | none => rfl
    | some v => simp [getNestedVal]
  · rw [getNestedVal, update_canonical_map_tle cfg sources ts]
    dsimp only
    rw [← pick_first_eq_spec_not_null]
    cases h1 : pick_first
        (effective_priority (cfg.getD default_source_priority) sources) sources
        "tle_line1" not_null with
    | none =>
        cases h2 : pick_first
            (effective_priority (cfg.getD default_source_priority) sources) sources
            "tle_line2" not_null with
        | none => simp [tle_fields, List.filterMap, h1, h2, tle_rename, getNestedVal, alget]
        | some v2 => simp [tle_fields, List.filterMap, h1, h2, tle_rename, getNestedVal, alget]
    | some v1 =>
        cases h2 : pick_first
            (effective_priority (cfg.getD default_source_priority) sources) sources
            "tle_line2" not_null with
        | none => simp [tle_fields, List.filterMap, h1, h2, tle_rename, getNestedVal, alget]
        | some v2 => simp [tle_fields, List.filterMap, h1, h2, tle_rename, getNestedVal, alget]
  · rw [getNestedVal, update_canonical_map_tle cfg sources ts]
    dsimp only
    rw [← pick_first_eq_spec_not_null]
    cases h1 : pick_first
        (effective_priority (cfg.getD default_source_priority) sources) sources
        "tle_line1" not_null with
    | none =>
        cases h2 : pick_first
            (effective_priority (cfg.getD default_source_priority) sources) sources
            "tle_line2" not_null with
        | none => simp [tle_fields, List.filterMap, h1, h2, tle_rename, getNestedVal, alget]
        | some v2 => simp [tle_fields, List.filterMap, h1, h2, tle_rename, getNestedVal, alget]
    | some v1 =>
        cases h2 : pick_first
            (effective_priority (cfg.getD default_source_priority) sources) sources
            "tle_line2" not_null with
        | none => simp [tle_fields, List.filterMap, h1, h2, tle_rename, getNestedVal, alget]
        | some v2 => simp [tle_fields, List.filterMap, h1, h2, tle_rename, getNestedVal, alget]

theorem c2_empty_value_shadow_amended_witness :
    alget (update_canonical_map Option.none
      [("unoosa", [("status", Val.str "")]),
       ("celestrak", [("status", Val.str "X")])] "t") "status" =
      some (Val.str "X") ∧
    getNestedVal (Val.dict (update_canonical_map Option.none
      [("unoosa", [("apogee_km", Val.null)]),
       ("celestrak", [("apogee_km", Val.int 500)])] "t")) ["orbit", "apogee_km"] =
      Val.int 500 :=
  ⟨((c2_empty_value_shadow_amended Option.none
      [("unoosa", [("status", Val.str "")]),
       ("celestrak", [("status", Val.str "X")])] "t").1 "status" (by decide)).trans rfl,
   ((c2_empty_value_shadow_amended Option.none
      [("unoosa", [("apogee_km", Val.null)]),
       ("celestrak", [("apogee_km", Val.int 500)])] "t").2.1 "apogee_km"
      (by decide)).trans rfl⟩

/-- C3: running `update_canonical` twice consecutively on a document
without changing its sources map or configured source_priority (the first
run touches neither) produces an identical canonical section apart from
the `updated_at` timestamp. -/
theorem c3_update_canonical_idempotent (doc : SatDoc) (ts1 ts2 : String) :
    (update_canonical doc ts1).sources = doc.sources ∧
    (update_canonical doc ts1).metadata_source_priority =
      doc.metadata_source_priority ∧
    without_updated_at ((update_canonical (update_canonical doc ts1) ts2).canonical) =
      without_updated_at ((update_canonical doc ts1).canonical) := by
  refine ⟨rfl, rfl, ?_⟩
  show without_updated_at
      (update_canonical_map doc.metadata_source_priority doc.sources ts2) = _
  exact update_canonical_map_time_independent doc.metadata_source_priority
    doc.sources ts2 ts1

/-- C4: the effective priority order used by `update_canonical` and
recorded in `canonical.source_priority` equals the configured priority
filtered to present sources, followed by the present-but-unlisted source
names in encounter order; no present source is dropped. -/
theorem c4_effective_priority_order (cfg : Option (List String))
    (sources : List (String × SrcRecord)) (ts : String) :
    alget (update_canonical_map cfg sources ts) "source_priority" =
      some (Val.arr ((effective_priority (cfg.getD default_source_priority)
        sources).map Val.str)) ∧
    effective_priority (cfg.getD default_source_priority) sources =
      (cfg.getD default_source_priority).filter
          (fun s => (alget sources s).isSome) ++
        (sources.map Prod.fst).filter
          (fun s => decide (s ∉ cfg.getD default_source_priority)) ∧
    ∀ s ∈ sources.map Prod.fst,
      s ∈ effective_priority (cfg.getD default_source_priority) sources := by
  refine ⟨update_canonical_map_source_priority cfg sources ts, rfl, ?_⟩
  intro s hs
  unfold effective_priority
  by_cases hc : s ∈ cfg.getD default_source_priority
  · apply List.mem_append.mpr
    left
    rw [List.mem_filter]
    exact ⟨hc, (alget_isSome_iff_mem_keys sources s).mpr hs⟩
  · apply List.mem_append.mpr
    right
    rw [List.mem_filter]
    exact ⟨hs, by simpa using hc⟩

theorem c4_effective_priority_order_witness :
    "extra" ∈ effective_priority
      ((Option.none : Option (List String)).getD default_source_priority)
      [("unoosa", ([] : SrcRecord)), ("extra", ([] : SrcRecord))] :=
  (c4_effective_priority_order Option.none
    [("unoosa", []), ("extra", [])] "t").2.2 "extra" (by decide)

/-- C10: for every document, `update_canonical` produces a canonical map
that always contains `orbit` and `tle` as (possibly empty) nested maps
together with `source_priority` and `updated_at`, and it rebuilds
canonical from scratch: the result does not depend on the previous
canonical section, so any canonical field not derivable from the current
sources is removed. -/
theorem c10_canonical_rebuild_invariants (doc : SatDoc) (ts : String) :
    (∃ o, alget (update_canonical doc ts).canonical "orbit" =
      some (Val.dict o)) ∧
    (∃ t, alget (update_canonical doc ts).canonical "tle" = some (Val.dict t)) ∧
    alget (update_canonical doc ts).canonical "updated_at" =
      some (Val.str ts) ∧
    (∃ p, alget (update_canonical doc ts).canonical "source_priority" =
      some (Val.arr p)) ∧
    ∀ c', (update_canonical { doc with canonical := c' } ts).canonical =
      (update_canonical doc ts).canonical := by
  refine ⟨⟨_, update_canonical_map_orbit _ _ _⟩,
    ⟨_, update_canonical_map_tle _ _ _⟩,
    update_canonical_map_updated_at _ _ _,
    ⟨_, update_canonical_map_source_priority _ _ _⟩,
    fun c' => rfl⟩

/-- C6: `set_nested_field` returns `True` exactly when no intermediate
segment of the dotted path resolves to an existing non-dict value: when
some scalar intermediate exists it returns `False` and leaves the
document completely unmodified (never a `True` that overwrites a
scalar); when none exists it creates missing intermediate dicts, sets
the final key to the given value, and returns `True`. -/
theorem c6_set_nested_field_safety (obj : List (String × Val)) (path : String)
    (keys : List String) (value : Val) (hk : splitPath path = keys)
    (hne : keys ≠ []) :
    ((set_nested_field obj path value).1 = true ↔ scalarFree obj keys = true) ∧
    ((set_nested_field obj path value).1 = false →
      (set_nested_field obj path value).2 = obj) ∧
    (scalarFree obj keys = true →
      getNestedVal (Val.dict (set_nested_field obj path value).2) keys = value) := by
  unfold set_nested_field
  rw [hk]
  refine ⟨setNested_ok_iff_scalarFree keys value obj hne,
    setNested_false_unchanged keys value obj, fun hfree => ?_⟩
  exact setNested_get_of_ok keys value obj
    ((setNested_ok_iff_scalarFree keys value obj hne).mpr hfree)

theorem c6_set_nested_field_safety_witness :
    (set_nested_field [("a", Val.str "scalar")] "a.b.c" (Val.int 1)).1 = false ∧
    (set_nested_field [("a", Val.str "scalar")] "a.b.c" (Val.int 1)).2 =
      [("a", Val.str "scalar")] ∧
    (set_nested_field [] "a.b.c" (Val.int 1)).1 = true ∧
    getNestedVal (Val.dict (set_nested_field [] "a.b.c" (Val.int 1)).2)
      ["a", "b", "c"] = Val.int 1 := by
  refine ⟨?_, ?_, ?_, ?_⟩
  · cases hb : (set_nested_field [("a", Val.str "scalar")] "a.b.c" (Val.int 1)).1 with
    | false => rfl
    | true =>
        exact absurd ((c6_set_nested_field_safety [("a", Val.str "scalar")] "a.b.c"
          ["a", "b", "c"] (Val.int 1) (by decide) (by decide)).1.mp hb) (by decide)
  · exact (c6_set_nested_field_safety [("a", Val.str "scalar")] "a.b.c"
      ["a", "b", "c"] (Val.int 1) (by decide) (by decide)).2.1 rfl
  · exact (c6_set_nested_field_safety [] "a.b.c" ["a", "b", "c"] (Val.int 1)
      (by decide) (by decide)).1.mpr (by decide)
  · exact (c6_set_nested_field_safety [] "a.b.c" ["a", "b", "c"] (Val.int 1)
      (by decide) (by decide)).2.2 (by decide)

theorem is_null_false_ne (v : Val) (h : is_null v = false) : v ≠ Val.null := by
  intro he
  subst he
  simp [is_null] at h

/-- C7 (counterexample): a successful promotion whose target path is
`metadata.transformations` itself overwrites the log before the new
record is appended: the previously appended record is lost, refuting
"leaves every previously appended record unchanged" for that target. -/
theorem c7_promotion_log_counterexample :
    (promote_document
      [("metadata", Val.dict [("transformations", Val.arr [Val.str "OLD"])]),
       ("sources", Val.dict [("kaggle", Val.dict [("tags", Val.arr [Val.str "LEO"])])])]
      "sources.kaggle.tags" "metadata.transformations" "t2" Option.none).1 =
      some (Val.arr [Val.str "LEO"]) ∧
    getTransformations
      [("metadata", Val.dict [("transformations", Val.arr [Val.str "OLD"])]),
       ("sources", Val.dict [("kaggle", Val.dict [("tags", Val.arr [Val.str "LEO"])])])] =
      some [Val.str "OLD"] ∧
    getTransformations (promote_document
      [("metadata", Val.dict [("transformations", Val.arr [Val.str "OLD"])]),
       ("sources", Val.dict [("kaggle", Val.dict [("tags", Val.arr [Val.str "LEO"])])])]
      "sources.kaggle.tags" "metadata.transformations" "t2" Option.none).2 =
      some [Val.str "LEO",
        mkTransformation "t2" "sources.kaggle.tags" "metadata.transformations"
          (Val.arr [Val.str "LEO"]) Option.none] ∧
    Val.str "OLD" ∉ [Val.str "LEO",
      mkTransformation "t2" "sources.kaggle.tags" "metadata.transformations"
        (Val.arr [Val.str "LEO"]) Option.none] := by
  refine ⟨rfl, rfl, rfl, ?_⟩
  intro hm
  rcases List.mem_cons.mp hm with he | he
  · have hs : "OLD" = "LEO" := by injection he
    exact absurd hs (by decide)
  · rw [List.mem_singleton] at he
    exact Val.noConfusion he

/-- C7 (amended): provided the target field path does not point at the
`metadata` entry itself or into `metadata.transformations`, a successful
promotion by `promote_document` appends exactly one transformation record
— carrying the source path, the target path and the promoted value — to
`metadata.transformations`, leaves every previously appended record
unchanged, and sets the target field to the source value. -/
theorem c7_promotion_log_amended (doc : List (String × Val))
    (source_field target_field ts : String) (reason : Option String)
    (v : Val) (doc' : List (String × Val))
    (hsafe : log_safe_path (splitPath target_field) = true)
    (h : promote_document doc source_field target_field ts reason = (some v, doc')) :
    v = getNestedVal (Val.dict doc) (splitPath source_field) ∧
    v ≠ Val.null ∧
    (∃ l, getTransformations doc = some l ∧
      getTransformations doc' =
        some (l ++ [mkTransformation ts source_field target_field v reason])) ∧
    getNestedVal (Val.dict doc') (splitPath target_field) = v := by
  unfold promote_document at h
  by_cases hnull : is_null (getNestedVal (Val.dict doc) (splitPath source_field)) = true
  · rw [if_pos hnull] at h
    simp at h
  · rw [if_neg hnull] at h
    rcases hset : setNested (splitPath target_field)
        (getNestedVal (Val.dict doc) (splitPath source_field)) doc with ⟨b, d2⟩
    rw [hset] at h
    cases b with
    | false => simp at h
    | true =>
        dsimp only at h
        cases hrec : record_transformation d2 ts source_field target_field
            (getNestedVal (Val.dict doc) (splitPath source_field)) reason with
        | none =>
            rw [hrec] at h
            simp at h
        | some d3 =>
            rw [hrec] at h
            have hv : getNestedVal (Val.dict doc) (splitPath source_field) = v := by
              have := congrArg Prod.fst h
              simpa using this
            have hd : d3 = doc' := by
              have := congrArg Prod.snd h
              simpa using this
            subst hd
            rw [hv] at hrec
            refine ⟨hv.symm, ?_, ?_, ?_⟩
            · rw [← hv]
              exact is_null_false_ne _ (by simpa using hnull)
            · obtain ⟨l, hl1, hl2⟩ :=
                record_transformation_log d2 ts source_field target_field v reason
                  d3 hrec
              refine ⟨l, ?_, hl2⟩
              rw [← hl1]
              have hpres := setNested_preserves_transformations
                (splitPath target_field)
                (getNestedVal (Val.dict doc) (splitPath source_field)) doc hsafe
              rw [hset] at hpres
              exact hpres.symm
            · have hget := record_transformation_preserves_nested d2 ts source_field
                target_field v reason d3 hrec (splitPath target_field) hsafe
              rw [hget]
              have hok : (setNested (splitPath target_field)
                  (getNestedVal (Val.dict doc) (splitPath source_field)) doc).1 =
                  true := by
                rw [hset]
              have hgot := setNested_get_of_ok (splitPath target_field)
                (getNestedVal (Val.dict doc) (splitPath source_field)) doc hok
              rw [hset] at hgot
              rw [hgot, hv]

theorem c7_promotion_log_amended_witness :
    getTransformations (promote_document
      [("sources", Val.dict [("kaggle", Val.dict [("orbital_band", Val.str "LEO")])])]
      "sources.kaggle.orbital_band" "canonical.orbital_band" "t1" Option.none).2 =
      some [mkTransformation "t1" "sources.kaggle.orbital_band"
        "canonical.orbital_band" (Val.str "LEO") Option.none] ∧
    getNestedVal (Val.dict (promote_document
      [("sources", Val.dict [("kaggle", Val.dict [("orbital_band", Val.str "LEO")])])]
      "sources.kaggle.orbital_band" "canonical.orbital_band" "t1" Option.none).2)
      (splitPath "canonical.orbital_band") = Val.str "LEO" := by
  have h := c7_promotion_log_amended
    [("sources", Val.dict [("kaggle", Val.dict [("orbital_band", Val.str "LEO")])])]
    "sources.kaggle.orbital_band" "canonical.orbital_band" "t1" Option.none
    (Val.str "LEO") (promote_document
      [("sources", Val.dict [("kaggle", Val.dict [("orbital_band", Val.str "LEO")])])]
      "sources.kaggle.orbital_band" "canonical.orbital_band" "t1" Option.none).2
    (by decide) rfl
  obtain ⟨_, _, ⟨l, hl1, hl2⟩, htgt⟩ := h
  constructor
  · rw [hl2]
    have : l = [] := by
      have : getTransformations
          [("sources", Val.dict [("kaggle", Val.dict [("orbital_band", Val.str "LEO")])])] =
          some [] := rfl
      rw [this] at hl1
      exact (Option.some.inj hl1).symm
    rw [this]
    rfl
  · rw [htgt]

/-- C8: for every combination of text query and
country/status/orbital_band/congestion_risk filter arguments,
`count_satellites` builds exactly the same filter dictionary as
`search_satellites`, so the count equals the length of the result list of
`search_satellites` with skip 0 and a limit covering all matches. -/
theorem c8_search_count_symmetry (rm : String → String → Bool)
    (docs : List (List (String × Val))) (query : Option String)
    (country status orbital_band congestion_risk : Option String) (limit : Nat)
    (hlim : count_satellites rm docs query country status orbital_band
      congestion_risk ≤ limit) :
    count_filters query country status orbital_band congestion_risk =
      search_filters (query.getD "") country status orbital_band congestion_risk ∧
    (search_satellites rm docs (query.getD "") country status orbital_band
      congestion_risk limit 0).length =
      count_satellites rm docs query country status orbital_band congestion_risk := by
  refine ⟨count_filters_eq_search_filters query country status orbital_band
    congestion_risk, ?_⟩
  unfold search_satellites count_satellites
  unfold count_satellites at hlim
  rw [count_filters_eq_search_filters] at hlim ⊢
  rw [List.drop_zero, List.length_take]
  exact Nat.min_eq_right hlim

theorem c8_search_count_symmetry_witness :
    (search_satellites (fun _ _ => true)
      [[("canonical", Val.dict [("name", Val.str "ISS")])], [("x", Val.null)]]
      "" Option.none Option.none Option.none Option.none 5 0).length =
      count_satellites (fun _ _ => true)
      [[("canonical", Val.dict [("name", Val.str "ISS")])], [("x", Val.null)]]
      Option.none Option.none Option.none Option.none Option.none :=
  (c8_search_count_symmetry (fun _ _ => true)
    [[("canonical", Val.dict [("name", Val.str "ISS")])], [("x", Val.null)]]
    Option.none Option.none Option.none Option.none Option.none 5 (by decide)).2

/-- C9 (counterexample): `parse_filter` leaves `"1e5"` as a string —
the code only tries `float()` when the value contains a `.` — although
the value parses as a Python float, so "else as a float when it parses as
one" fails on the input `"f=1e5"`. -/
theorem c9_parse_filter_counterexample :
    parse_filter ("f=1e5".toList) =
      some [("f".toList, PyVal.str ("1e5".toList))] ∧
    pyFloatOk ("1e5".toList) = true ∧
    spec_convert_value ("1e5".toList) = PyVal.float ("1e5".toList) ∧
    PyVal.str ("1e5".toList) ≠ PyVal.float ("1e5".toList) :=
  ⟨by decide, by decide, by decide, by decide⟩

/-- C9 (amended): `parse_filter` parses each value of a
`field=value[,field=value...]` expression as a float when it contains a
`.` and parses as a float, as an integer when it contains no `.` and
parses as an integer, and otherwise leaves it as the original string. -/
theorem c9_parse_filter_amended (f v : List Char)
    (hfc : ',' ∉ f) (hvc : ',' ∉ v) (hfe : '=' ∉ f) :
    parse_filter (f ++ '=' :: v) =
      some [(pyStrip f, convert_value (pyStrip v))] ∧
    ∀ w : List Char,
      ('.' ∈ w →
        convert_value w = (if pyFloatOk w then PyVal.float w else PyVal.str w)) ∧
      ('.' ∉ w →
        convert_value w =
          (match pyInt w with
           | some n => PyVal.int n
           | Option.none => PyVal.str w)) := by
  refine ⟨parse_filter_single f v hfc hvc hfe, fun w => ⟨fun hdot => ?_, fun hdot => ?_⟩⟩
  · unfold convert_value
    rw [if_pos hdot]
  · unfold convert_value
    rw [if_neg hdot]

theorem c9_parse_filter_amended_witness :
    parse_filter ("a".toList ++ '=' :: "007".toList) =
      some [("a".toList, PyVal.int 7)] ∧
    parse_filter ("b".toList ++ '=' :: "2.5".toList) =
      some [("b".toList, PyVal.float ("2.5".toList))] :=
  ⟨(c9_parse_filter_amended ("a".toList) ("007".toList)
      (by decide) (by decide) (by decide)).1.trans (by decide),
   (c9_parse_filter_amended ("b".toList) ("2.5".toList)
      (by decide) (by decide) (by decide)).1.trans (by decide)⟩

/-- C5 (counterexample): for the long form `"1998-67A"` — year 1998,
two-digit sequence, piece letter — the short form is `"98067A"`, but
converting that short form back yields `"1998-067A"`, not the original
long form: the round trip only recovers sequences already written with
three digits. -/
theorem c5_designator_roundtrip_counterexample :
    match_designator_format ("1998-67A".toList) = some ("98067A".toList) ∧
    match_designator_format ("98067A".toList) = some ("1998-067A".toList) ∧
    ("1998-067A".toList : List Char) ≠ "1998-67A".toList :=
  ⟨by decide, by decide, by decide⟩

/-- C5 (amended): for every long-form designator `YYYY-NNNX` with a
4-digit year between 1958 and 2057, a numeric sequence of at most 3
digits and an optional single trailing piece letter,
`match_designator_format` returns the short form made of the last two
year digits, the sequence zero-padded to 3 digits, and the piece letter;
applying `match_designator_format` to that short form yields the long
form with the sequence zero-padded to three digits (years > 57 mapped to
the 1900s, others to the 2000s), which equals the original long form
exactly when the original sequence was written with 3 digits. -/
theorem c5_designator_roundtrip_amended (y : Nat) (q piece : List Char)
    (hy1 : 1958 ≤ y) (hy2 : y ≤ 2057)
    (hq : ∀ c ∈ q, pyIsDigit c = true) (hqne : q ≠ []) (hqlen : q.length ≤ 3)
    (hp : piece = [] ∨ ∃ c, piece = [c] ∧ pyIsAlpha c = true) :
    match_designator_format (natRepr y ++ '-' :: (q ++ piece)) =
      some ((natRepr y).drop 2 ++ (padZero3 q ++ piece)) ∧
    match_designator_format ((natRepr y).drop 2 ++ (padZero3 q ++ piece)) =
      some (natRepr y ++ '-' :: (padZero3 q ++ piece)) ∧
    (q.length = 3 →
      match_designator_format ((natRepr y).drop 2 ++ (padZero3 q ++ piece)) =
        some (natRepr y ++ '-' :: (q ++ piece))) := by
  refine ⟨designator_long_to_short y q piece hy1 hy2 hq hqne hqlen hp,
    designator_short_to_long y q piece hy1 hy2 hq hqne hqlen hp, fun h3 => ?_⟩
  rw [designator_short_to_long y q piece hy1 hy2 hq hqne hqlen hp,
    padZero3_of_length_three q h3]

theorem c5_designator_roundtrip_amended_witness :
    match_designator_format ("1998-067A".toList) = some ("98067A".toList) ∧
    match_designator_format ("98067A".toList) = some ("1998-067A".toList) := by
  have h := c5_designator_roundtrip_amended 1998 ("067".toList) ['A']
    (by decide) (by decide) (by decide) (by decide) (by decide)
    (Or.inr ⟨'A', rfl, by decide⟩)
  have e1 : "1998-067A".toList = natRepr 1998 ++ '-' :: ("067".toList ++ ['A']) := by
    decide
  have e2 : "98067A".toList =
      (natRepr 1998).drop 2 ++ (padZero3 ("067".toList) ++ ['A']) := by decide
  constructor
  · rw [e1, e2]
    exact h.1
  · rw [e1, e2]
    exact h.2.2 (by decide)
